import Mathlib

/-!
Verification of the rational-arithmetic core and the elimination engine of the
Linear-Algebra-Matrix repository.

The embedding translates:
  * `src/linear-algebra/lib/fractions.ts` — the `Fraction` class (exact rational
    arithmetic in canonical form), and
  * `src/unnamed/part_000` — Gaussian elimination (REF), Gauss-Jordan elimination
    (RREF), solution extraction and the system classifier, all over `Fraction`.

Modelling conventions:
  * JS `number` values that hold integers are modelled as `Int`; every division
    performed by the source on such values is exact (division by a common
    divisor), so `Int` division (`/` = `Int.ediv`) agrees with it.
  * JS `%` on integers is truncating remainder, i.e. `Int.tmod`.
  * `throw` is modelled by `Except FracErr`.
  * `toDecimal()` is used by the source only for magnitude comparisons and the
    near-zero test; these are modelled as the corresponding exact comparisons of
    the rational value (`Fraction.val : ℚ`) against `1e-10 = 1/10^10`.
  * Trace-step operation labels are modelled structurally (inductive `Op`)
    rather than as display strings; the description strings carry no further
    information.
-/

/-- Fuel-driven Euclidean recursion underlying `Fraction.gcd`.  The fuel only
serves kernel reducibility; `Fraction.gcd_eq` recovers the source's recursion
`gcd(a,b) = b === 0 ? a : gcd(b, a % b)`. -/
def Fraction.gcdAux : Nat → Int → Int → Int
  | 0, a, _ => a
  | fuel + 1, a, b => if b = 0 then a else Fraction.gcdAux fuel b (Int.tmod a b)

/-- `Fraction.gcd` from the source: `b === 0 ? a : gcd(b, a % b)` (JS `%` on
integers is truncating remainder `Int.tmod`).  Fuel `b.natAbs + 1` always
suffices, see `Fraction.gcd_eq`. -/
def Fraction.gcd (a b : Int) : Int := Fraction.gcdAux (b.natAbs + 1) a b

/-- `Fraction.lcm` from the source: `Math.abs(a * b) / Fraction.gcd(a, b)`.
On the denominators it is applied to, the division is exact. -/
def Fraction.lcm (a b : Int) : Int := ((a * b).natAbs : Int) / Fraction.gcd a b

/-- The `Fraction` class: a numerator/denominator pair.  The canonical-form
invariant is *not* baked into the type; it is the predicate `Fraction.WF`
that the constructor is proved to establish. -/
structure Fraction where
  numerator : Int
  denominator : Int
deriving DecidableEq

/-- The error conditions of the source (`"Denominator cannot be zero"` in the
constructor and `"Division by zero"` in `divide`); the spec names both
DivisionByZero. -/
inductive FracErr where
  | divisionByZero
deriving DecidableEq

/-- The `Fraction` constructor.  Throws on a zero denominator; moves the sign
to the numerator; maps a zero numerator to `0/1`; otherwise divides both
components by their gcd (`Math.abs` is `Int.natAbs`; both divisions are
exact). -/
def Fraction.make (numerator denominator : Int) : Except FracErr Fraction :=
  if denominator = 0 then .error .divisionByZero
  else
    let n := if denominator < 0 then -numerator else numerator
    let d := if denominator < 0 then -denominator else denominator
    if n = 0 then .ok ⟨0, 1⟩
    else
      let g := Fraction.gcd (n.natAbs : Int) (d.natAbs : Int)
      .ok ⟨n / g, d / g⟩

/-- Coercion of a JS integer to a `Fraction`, as done by `new Fraction(v)`
(denominator defaulted to 1).  `Fraction.make_intCast` shows the constructor
returns exactly this value. -/
def Fraction.ofInt (k : Int) : Fraction := ⟨k, 1⟩

/-- `Fraction.add`: numerators rescaled to the lcm of the denominators, then
passed through the constructor. -/
def Fraction.add (a b : Fraction) : Except FracErr Fraction :=
  let l := Fraction.lcm a.denominator b.denominator
  Fraction.make (a.numerator * (l / a.denominator) + b.numerator * (l / b.denominator)) l

/-- `Fraction.subtract`. -/
def Fraction.subtract (a b : Fraction) : Except FracErr Fraction :=
  let l := Fraction.lcm a.denominator b.denominator
  Fraction.make (a.numerator * (l / a.denominator) - b.numerator * (l / b.denominator)) l

/-- `Fraction.multiply`. -/
def Fraction.multiply (a b : Fraction) : Except FracErr Fraction :=
  Fraction.make (a.numerator * b.numerator) (a.denominator * b.denominator)

/-- `Fraction.divide`: throws iff the divisor's numerator is zero, else
multiplies by the reciprocal. -/
def Fraction.divide (a b : Fraction) : Except FracErr Fraction :=
  if b.numerator = 0 then .error .divisionByZero
  else Fraction.make (a.numerator * b.denominator) (a.denominator * b.numerator)

/-- `abs()`: `new Fraction(Math.abs(num), den)`. -/
def Fraction.abs (a : Fraction) : Except FracErr Fraction :=
  Fraction.make (a.numerator.natAbs : Int) a.denominator

/-- `negate()`: `new Fraction(-num, den)`. -/
def Fraction.negate (a : Fraction) : Except FracErr Fraction :=
  Fraction.make (-a.numerator) a.denominator

/-- The rational value of a fraction (`toDecimal()` as an exact rational). -/
def Fraction.val (f : Fraction) : ℚ := (f.numerator : ℚ) / (f.denominator : ℚ)

/-- `isZero()`: exact test on the numerator. -/
def Fraction.isZero (f : Fraction) : Bool := f.numerator == 0

/-- The epsilon of `isNearZero` (`1e-10`), as an exact rational. -/
def Fraction.eps : ℚ := 1 / 10000000000

/-- `isNearZero()`: `Math.abs(toDecimal()) < 1e-10`.  Modelled by the
equivalent integer comparison `10^10 * |num| < |den|`
(`Fraction.isNearZero_iff_val` proves the equivalence with
`|val| < 1e-10` on positive denominators; on the unreachable `den = 0` the
JS comparison against `NaN`/`Infinity` is `false`, as here). -/
def Fraction.isNearZero (f : Fraction) : Bool :=
  decide (10000000000 * f.numerator.natAbs < f.denominator.natAbs)

/-- `equals()`: structural equality of numerator and denominator. -/
def Fraction.equals (a b : Fraction) : Bool := decide (a = b)

/-- The pivot-magnitude comparison of the elimination engine:
`Math.abs(a.toDecimal()) > Math.abs(b.toDecimal())`, modelled by the
equivalent cross-multiplied integer comparison (`Fraction.absGt_iff_val`). -/
def Fraction.absGt (a b : Fraction) : Bool :=
  decide (b.numerator.natAbs * a.denominator.natAbs < a.numerator.natAbs * b.denominator.natAbs)

/-- The canonical-form invariant of the spec: positive denominator, and either
the zero fraction is `0/1` or numerator and denominator are coprime. -/
def Fraction.WF (f : Fraction) : Prop :=
  0 < f.denominator ∧
    ((f.numerator = 0 ∧ f.denominator = 1) ∨
      Nat.gcd f.numerator.natAbs f.denominator.natAbs = 1)

instance (f : Fraction) : Decidable f.WF := by
  unfold Fraction.WF
  exact inferInstance

/-- Decidable equality for `Except` results (needed to settle concrete runs by
`decide`). -/
def exceptDecEq {e a : Type} [DecidableEq e] [DecidableEq a] : DecidableEq (Except e a) :=
  fun x y =>
    match x, y with
    | .ok u, .ok v =>
        if h : u = v then .isTrue (congrArg Except.ok h)
        else .isFalse (fun hc => h (Except.ok.inj hc))
    | .error u, .error v =>
        if h : u = v then .isTrue (congrArg Except.error h)
        else .isFalse (fun hc => h (Except.error.inj hc))
    | .ok _, .error _ => .isFalse (fun hc => Except.noConfusion hc)
    | .error _, .ok _ => .isFalse (fun hc => Except.noConfusion hc)

instance {e a : Type} [DecidableEq e] [DecidableEq a] : DecidableEq (Except e a) :=
  exceptDecEq

/-! ### The elimination engine (src/unnamed/part_000)

Matrices are lists of rows of fractions.  The JS code indexes with `m[i][j]`
and mutates a working copy in place; the embedding passes the working matrix
explicitly and reads out-of-range indices with a default (never exercised on
the rectangular inputs the engine is specified for). -/

/-- A matrix of fractions (`FractionMatrix`). -/
abbrev Mat := List (List Fraction)

/-- Trace-step operation labels, modelled structurally: the source stores the
display strings `"Initial"`, `R{i+1} ↔ R{j+1}`, `{f}R{i+1}` and
`R{i+1} - {f}R{j+1}`; the constructors carry the same data. -/
inductive Op where
  | initial
  | swap (i j : Nat)
  | scale (f : Fraction) (i : Nat)
  | elim (f : Fraction) (i j : Nat)
deriving DecidableEq

/-- `FractionEliminationStep` (the `description` string carries no further
information and is omitted). -/
structure FractionEliminationStep where
  matrix : Mat
  operation : Op
deriving DecidableEq

/-- `FractionEliminationResult`. -/
structure FractionEliminationResult where
  result : Mat
  steps : List FractionEliminationStep
deriving DecidableEq

/-- `SystemClassification`. -/
inductive SystemClassification where
  | unique
  | infinite
  | none
deriving DecidableEq

/-- Read `m[i][j]` (defaulting out of range, which the engine never does on
rectangular input). -/
def Mat.entry (m : Mat) (i j : Nat) : Fraction := (m.getD i []).getD j ⟨0, 1⟩

/-- The JS destructuring swap `[m[i], m[j]] = [m[j], m[i]]`: both right-hand
sides are read before either write. -/
def Mat.swapRows (m : Mat) (i j : Nat) : Mat :=
  (m.set i (m.getD j [])).set j (m.getD i [])

/-- The partial-pivoting scan: starting from `maxRow`, walk the listed row
indices and keep the row whose entry in `col` has strictly larger decimal
magnitude. -/
def findPivotAux (m : Mat) (col : Nat) : Nat → List Nat → Nat
  | maxRow, [] => maxRow
  | maxRow, r :: rest =>
      findPivotAux m col
        (if Fraction.absGt (Mat.entry m r col) (Mat.entry m maxRow col) then r else maxRow) rest

/-- Pivot selection of both algorithms: scan rows `startRow+1 … rows-1` in
column `col`, starting from candidate `startRow`. -/
def findPivotRow (m : Mat) (col startRow rows : Nat) : Nat :=
  findPivotAux m col startRow (List.range' (startRow + 1) (rows - (startRow + 1)))

/-- The inner row-combination loop
`target[j] = subtract(target[j], multiply(factor, pivotRow[j]))`, running over
the paired entries of the two (equal-length) row suffixes. -/
def combineWith (factor : Fraction) : List Fraction → List Fraction → Except FracErr (List Fraction)
  | [], _ => .ok []
  | x :: xs, [] => .ok (x :: xs)
  | x :: xs, y :: ys => do
      let p ← Fraction.multiply factor y
      let z ← Fraction.subtract x p
      let rest ← combineWith factor xs ys
      return z :: rest

/-- Row combination from column `start` to the end of the row (`start = col`
in Gaussian elimination, `start = 0` in Gauss-Jordan). -/
def combineFrom (factor : Fraction) (target pivotRow : List Fraction) (start : Nat) :
    Except FracErr (List Fraction) := do
  let suffix ← combineWith factor (target.drop start) (pivotRow.drop start)
  return target.take start ++ suffix

/-- Monadic map over a row (the scaling loop of Gauss-Jordan). -/
def mapRowM (f : Fraction → Except FracErr Fraction) : List Fraction → Except FracErr (List Fraction)
  | [] => .ok []
  | x :: xs => do
      let y ← f x
      let ys ← mapRowM f xs
      return y :: ys

/-- Gaussian elimination, inner loop: eliminate below the pivot row `col` in
each listed row whose entry in column `col` is not near-zero, appending one
trace step per eliminated row. -/
def geElimBelow (col : Nat) : Mat → List FractionEliminationStep → List Nat →
    Except FracErr (Mat × List FractionEliminationStep)
  | m, steps, [] => .ok (m, steps)
  | m, steps, row :: rest =>
    if (Mat.entry m row col).isNearZero then geElimBelow col m steps rest
    else do
      let factor ← Fraction.divide (Mat.entry m row col) (Mat.entry m col col)
      let newRow ← combineFrom factor (m.getD row []) (m.getD col []) col
      let m2 := m.set row newRow
      geElimBelow col m2 (steps ++ [⟨m2, .elim factor row col⟩]) rest

/-- Gaussian elimination, outer loop over the listed pivot columns: partial
pivoting, optional traced swap, near-zero-pivot skip, elimination below. -/
def geLoop (rows : Nat) : Mat → List FractionEliminationStep → List Nat →
    Except FracErr (Mat × List FractionEliminationStep)
  | m, steps, [] => .ok (m, steps)
  | m, steps, col :: rest =>
    let maxRow := findPivotRow m col col rows
    let m1 := if maxRow ≠ col then Mat.swapRows m col maxRow else m
    let steps1 := if maxRow ≠ col then steps ++ [⟨m1, .swap col maxRow⟩] else steps
    if (Mat.entry m1 col col).isNearZero then geLoop rows m1 steps1 rest
    else do
      let (m2, steps2) ← geElimBelow col m1 steps1 (List.range' (col + 1) (rows - (col + 1)))
      geLoop rows m2 steps2 rest

/-- `gaussianEliminationWithFractions`: initial snapshot, then the column loop
over `0 … min(rows, cols-1) - 1`.  (The source first coerces entries to
`Fraction`; the embedding takes a `Fraction` matrix directly.) -/
def gaussianEliminationWithFractions (augmentedMatrix : Mat) :
    Except FracErr FractionEliminationResult := do
  let rows := augmentedMatrix.length
  let cols := (augmentedMatrix.getD 0 []).length
  let steps : List FractionEliminationStep := [⟨augmentedMatrix, .initial⟩]
  let (r, steps2) ← geLoop rows augmentedMatrix steps (List.range (min rows (cols - 1)))
  return ⟨r, steps2⟩

/-- Gauss-Jordan: scale the pivot row so the pivot becomes 1, traced only when
the pivot does not already equal `1` structurally. -/
def gjScale (m : Mat) (steps : List FractionEliminationStep) (crow col : Nat) :
    Except FracErr (Mat × List FractionEliminationStep) :=
  let pivotValue := Mat.entry m crow col
  if Fraction.equals pivotValue (Fraction.ofInt 1) then .ok (m, steps)
  else do
    let scaleFactor ← Fraction.divide (Fraction.ofInt 1) pivotValue
    let newRow ← mapRowM (fun x => Fraction.multiply scaleFactor x) (m.getD crow [])
    let m2 := m.set crow newRow
    .ok (m2, steps ++ [⟨m2, .scale scaleFactor crow⟩])

/-- Gauss-Jordan: eliminate the pivot column in every listed row other than the
pivot row, appending one trace step per eliminated row. -/
def gjElimOthers (crow col : Nat) : Mat → List FractionEliminationStep → List Nat →
    Except FracErr (Mat × List FractionEliminationStep)
  | m, steps, [] => .ok (m, steps)
  | m, steps, row :: rest =>
    if row = crow then gjElimOthers crow col m steps rest
    else if (Mat.entry m row col).isNearZero then gjElimOthers crow col m steps rest
    else do
      let factor := Mat.entry m row col
      let newRow ← combineFrom factor (m.getD row []) (m.getD crow []) 0
      let m2 := m.set row newRow
      gjElimOthers crow col m2 (steps ++ [⟨m2, .elim factor row crow⟩]) rest

/-- Gauss-Jordan, outer loop over the listed columns with the `currentRow`
cursor (`if (currentRow >= rows) break`; on a near-zero pivot the cursor
advances and the loop moves on to the next column). -/
def gjLoop (rows : Nat) : Mat → Nat → List FractionEliminationStep → List Nat →
    Except FracErr (Mat × Nat × List FractionEliminationStep)
  | m, crow, steps, [] => .ok (m, crow, steps)
  | m, crow, steps, col :: rest =>
    if rows ≤ crow then .ok (m, crow, steps)
    else
      let maxRow := findPivotRow m col crow rows
      let m1 := if maxRow ≠ crow then Mat.swapRows m crow maxRow else m
      let steps1 := if maxRow ≠ crow then steps ++ [⟨m1, .swap crow maxRow⟩] else steps
      if (Mat.entry m1 crow col).isNearZero then gjLoop rows m1 (crow + 1) steps1 rest
      else do
        let (m2, steps2) ← gjScale m1 steps1 crow col
        let (m3, steps3) ← gjElimOthers crow col m2 steps2 (List.range rows)
        gjLoop rows m3 (crow + 1) steps3 rest

/-- `gaussJordanWithFractions`. -/
def gaussJordanWithFractions (augmentedMatrix : Mat) :
    Except FracErr FractionEliminationResult := do
  let rows := augmentedMatrix.length
  let cols := (augmentedMatrix.getD 0 []).length
  let steps : List FractionEliminationStep := [⟨augmentedMatrix, .initial⟩]
  let (r, _, steps2) ← gjLoop rows augmentedMatrix 0 steps (List.range (min rows (cols - 1)))
  return ⟨r, steps2⟩

/-- Back-substitution inner loop:
`sum = subtract(sum, multiply(refMatrix[i][j], solution[j]))` over the listed
`j`. -/
def refSumLoop (mat : Mat) (sol : List Fraction) (i : Nat) :
    Fraction → List Nat → Except FracErr Fraction
  | s, [] => .ok s
  | s, j :: rest => do
      let p ← Fraction.multiply (Mat.entry mat i j) (sol.getD j ⟨0, 1⟩)
      let s2 ← Fraction.subtract s p
      refSumLoop mat sol i s2 rest

/-- Back-substitution outer loop over the listed row indices (descending). -/
def refExtractAux (mat : Mat) (n : Nat) : List Fraction → List Nat →
    Except FracErr (List Fraction)
  | sol, [] => .ok sol
  | sol, i :: rest => do
      let sol2 ←
        if i < (mat.getD 0 []).length - 1 then do
          let row := mat.getD i []
          let s0 := row.getD (row.length - 1) ⟨0, 1⟩
          let s ← refSumLoop mat sol i s0 (List.range' (i + 1) (n - (i + 1)))
          if (Mat.entry mat i i).isNearZero then pure sol
          else do
            let v ← Fraction.divide s (Mat.entry mat i i)
            pure (sol.set i v)
        else pure sol
      refExtractAux mat n sol2 rest

/-- `extractSolutionFromREFFractions`: back substitution from the last row
upward, defaulting unresolved entries to the zero fraction. -/
def extractSolutionFromREFFractions (refMatrix : Mat) : Except FracErr (List Fraction) :=
  let n := refMatrix.length
  refExtractAux refMatrix n (List.replicate n ⟨0, 1⟩) (List.range n).reverse

/-- Per-row test `matrix[i].slice(0, cols - 1).some(v => !v.isNearZero())`. -/
def rowHasCoeff (cols : Nat) (row : List Fraction) : Bool :=
  (row.take (cols - 1)).any (fun v => !v.isNearZero)

/-- Per-row test `matrix[i].some(v => !v.isNearZero())`. -/
def rowHasAny (row : List Fraction) : Bool :=
  row.any (fun v => !v.isNearZero)

/-- The classifier's counting loop: fold the rows, incrementing `rankA` on
`hasCoeff` and `rankAugmented` on `hasAny`. -/
def classifyRows (cols : Nat) : Mat → Nat → Nat → Nat × Nat
  | [], rankA, rankAugmented => (rankA, rankAugmented)
  | row :: rest, rankA, rankAugmented =>
      classifyRows cols rest
        (if rowHasCoeff cols row then rankA + 1 else rankA)
        (if rowHasAny row then rankAugmented + 1 else rankAugmented)

/-- `classifyAugmentedSystemFractions`. -/
def classifyAugmentedSystemFractions (matrix : Mat) : SystemClassification :=
  let cols := (matrix.getD 0 []).length
  let p := classifyRows cols matrix 0 0
  if p.1 < p.2 then .none
  else if p.1 < cols - 1 then .infinite
  else .unique

/-- `numberMatrixToFractions` on an integer matrix: coerce every entry through
the constructor (`new Fraction(val)` = `Fraction.ofInt val`, see
`Fraction.make_intCast`). -/
def numberMatrixToFractions (m : List (List Int)) : Mat :=
  m.map (fun row => row.map Fraction.ofInt)

/-- Every entry of the matrix is in canonical form. -/
def Mat.WF (m : Mat) : Prop := ∀ row ∈ m, ∀ f ∈ row, f.WF

/-- The matrix is rectangular with `cols` columns (the caller-maintained
invariant of the data model). -/
def Mat.Rect (m : Mat) (cols : Nat) : Prop := ∀ row ∈ m, row.length = cols

instance (m : Mat) : Decidable m.WF := by
  unfold Mat.WF
  exact inferInstance

instance (m : Mat) (cols : Nat) : Decidable (m.Rect cols) := by
  unfold Mat.Rect
  exact inferInstance

/-- A row whose every entry has value zero. -/
def isZeroRow (row : List Fraction) : Prop := ∀ f ∈ row, f.numerator = 0

instance (row : List Fraction) : Decidable (isZeroRow row) := by
  unfold isZeroRow
  exact inferInstance

/-- Index of the leading (first value-nonzero) entry of a row; `row.length` if
the row is zero. -/
def leadIdx (row : List Fraction) : Nat := row.findIdx (fun f => decide (f.numerator ≠ 0))

/-- Reduced row-echelon form, per the spec's glossary: zero rows at the bottom;
leading entries strictly to the right of the leading entry of every earlier
row; every leading entry is the canonical `1`; a leading entry is the only
value-nonzero entry of its column. -/
def Mat.IsRREF (m : Mat) : Prop :=
  (∀ i ∈ List.range m.length, ∀ j ∈ List.range m.length,
      i ≤ j → isZeroRow (m.getD i []) → isZeroRow (m.getD j [])) ∧
  (∀ i ∈ List.range m.length, ∀ j ∈ List.range m.length,
      i < j → ¬isZeroRow (m.getD j []) → leadIdx (m.getD i []) < leadIdx (m.getD j [])) ∧
  (∀ i ∈ List.range m.length, ¬isZeroRow (m.getD i []) →
      (m.getD i []).getD (leadIdx (m.getD i [])) ⟨0, 1⟩ = ⟨1, 1⟩) ∧
  (∀ i ∈ List.range m.length, ¬isZeroRow (m.getD i []) →
      ∀ r ∈ List.range m.length, r ≠ i →
        (Mat.entry m r (leadIdx (m.getD i []))).numerator = 0)

instance (m : Mat) : Decidable m.IsRREF := by
  unfold Mat.IsRREF
  exact inferInstance

/-- The stepping behaviour that claim C3 (spec §4.3 step 3) ascribes to the
near-zero-pivot branch, rendered as a variant loop, for comparison with the
source's `gjLoop`: on a near-zero pivot, advance `currentRow` and reconsider
THE SAME column with the next row; everything else as in the source.  Fuel
makes the double recursion structural; `rows + (length of the column list)`
strictly bounds the number of iterations. -/
def gjReconsiderAux (rows : Nat) :
    Nat → Mat → Nat → List FractionEliminationStep → List Nat →
    Except FracErr (Mat × Nat × List FractionEliminationStep)
  | 0, m, crow, steps, _ => .ok (m, crow, steps)
  | _ + 1, m, crow, steps, [] => .ok (m, crow, steps)
  | fuel + 1, m, crow, steps, col :: rest =>
    if rows ≤ crow then .ok (m, crow, steps)
    else
      let maxRow := findPivotRow m col crow rows
      let m1 := if maxRow ≠ crow then Mat.swapRows m crow maxRow else m
      let steps1 := if maxRow ≠ crow then steps ++ [⟨m1, .swap crow maxRow⟩] else steps
      if (Mat.entry m1 crow col).isNearZero then
        gjReconsiderAux rows fuel m1 (crow + 1) steps1 (col :: rest)
      else do
        let (m2, steps2) ← gjScale m1 steps1 crow col
        let (m3, steps3) ← gjElimOthers crow col m2 steps2 (List.range rows)
        gjReconsiderAux rows fuel m3 (crow + 1) steps3 rest

/-- Gauss-Jordan as claim C3 describes it (same-column reconsideration); only
the near-zero-pivot branch differs from `gaussJordanWithFractions`. -/
def gaussJordanReconsider (augmentedMatrix : Mat) :
    Except FracErr FractionEliminationResult := do
  let rows := augmentedMatrix.length
  let cols := (augmentedMatrix.getD 0 []).length
  let steps : List FractionEliminationStep := [⟨augmentedMatrix, .initial⟩]
  let cl := List.range (min rows (cols - 1))
  let (r, _, steps2) ← gjReconsiderAux rows (rows + cl.length) augmentedMatrix 0 steps cl
  return ⟨r, steps2⟩

/-- The number of rows with a non-near-zero entry among the non-last columns
(what the classifier calls `rankA`), as a direct count. -/
def rankA (m : Mat) : Nat := m.countP (fun row => rowHasCoeff (m.getD 0 []).length row)

/-- The number of rows with a non-near-zero entry anywhere (`rankAugmented`),
as a direct count. -/
def rankAugmented (m : Mat) : Nat := m.countP (fun row => rowHasAny row)

/-- The trace-chain condition of the spec: a step is admissible after `prev`
if it is a row-swap step or its snapshot differs from the predecessor's
(same-shape list matrices differ exactly when some entry differs). -/
def stepOk (prev next : FractionEliminationStep) : Prop :=
  (∃ i j, next.operation = Op.swap i j) ∨ next.matrix ≠ prev.matrix

/-- Every consecutive pair of trace steps satisfies `stepOk`. -/
def chainOk : List FractionEliminationStep → Prop
  | [] => True
  | [_] => True
  | s :: t :: rest => stepOk s t ∧ chainOk (t :: rest)

/-- The loop invariant shared by both elimination loops: the working matrix
keeps the input's shape and canonical-form entries; the trace starts with the
`Initial` snapshot of the input, ends with a snapshot of the current working
matrix, is `chainOk`, and all its snapshots have the input's shape. -/
structure LoopInv (m0 : Mat) (rows cols : Nat) (m : Mat)
    (steps : List FractionEliminationStep) : Prop where
  len : m.length = rows
  rect : ∀ row ∈ m, row.length = cols
  wf : Mat.WF m
  head : steps.head? = some ⟨m0, Op.initial⟩
  lastm : ∃ s, steps.getLast? = some s ∧ s.matrix = m
  chain : chainOk steps
  shapes : ∀ s ∈ steps, s.matrix.length = rows ∧ ∀ row ∈ s.matrix, row.length = cols

/-! ## Groundwork: the Euclidean gcd -/

theorem Fraction.natAbs_tmod (a b : Int) : (Int.tmod a b).natAbs = a.natAbs % b.natAbs := by
  cases a <;> cases b <;>
    simp only [Int.tmod, Int.natAbs_neg, Int.natAbs_ofNat] <;> rfl

theorem Fraction.gcdAux_natCast :
    ∀ (fuel x y : Nat), y < fuel →
      Fraction.gcdAux fuel (x : Int) (y : Int) = (Nat.gcd x y : Int) := by
  intro fuel
  induction fuel with
  | zero => intro x y h; omega
  | succ n ih =>
    intro x y h
    by_cases hy : y = 0
    · subst hy
      simp [Fraction.gcdAux]
    · have hy0 : (y : Int) ≠ 0 := by exact_mod_cast hy
      have htm : Int.tmod (x : Int) (y : Int) = ((x % y : Nat) : Int) := rfl
      have hrec : x % y < n := by
        have := Nat.mod_lt x (Nat.pos_of_ne_zero hy)
        omega
      calc Fraction.gcdAux (n + 1) (x : Int) (y : Int)
          = Fraction.gcdAux n (y : Int) ((x % y : Nat) : Int) := by
            simp [Fraction.gcdAux, hy0, htm]
        _ = (Nat.gcd y (x % y) : Int) := ih y (x % y) hrec
        _ = (Nat.gcd x y : Int) := by
            rw [Nat.gcd_comm y (x % y), ← Nat.gcd_rec y x, Nat.gcd_comm y x]

theorem Fraction.gcd_natCast (x y : Nat) :
    Fraction.gcd (x : Int) (y : Int) = (Nat.gcd x y : Int) := by
  unfold Fraction.gcd
  have : ((y : Int)).natAbs = y := rfl
  rw [this]
  exact Fraction.gcdAux_natCast (y + 1) x y (Nat.lt_succ_self y)

theorem Fraction.gcdAux_congr :
    ∀ (f1 f2 : Nat) (a b : Int), b.natAbs < f1 → b.natAbs < f2 →
      Fraction.gcdAux f1 a b = Fraction.gcdAux f2 a b := by
  intro f1
  induction f1 with
  | zero => intro f2 a b h1 _; omega
  | succ n ih =>
    intro f2 a b h1 h2
    match f2, h2 with
    | f2 + 1, h2 =>
      by_cases hb : b = 0
      · subst hb; simp [Fraction.gcdAux]
      · have hlt : (Int.tmod a b).natAbs < b.natAbs := by
          rw [Fraction.natAbs_tmod]
          exact Nat.mod_lt _ (Int.natAbs_pos.mpr hb)
        simp only [Fraction.gcdAux, if_neg hb]
        exact ih f2 b (Int.tmod a b) (by omega) (by omega)

/-- The source's recursion `gcd(a, b) = b === 0 ? a : gcd(b, a % b)` holds of
`Fraction.gcd` (the fuel is invisible). -/
theorem Fraction.gcd_eq (a b : Int) :
    Fraction.gcd a b = if b = 0 then a else Fraction.gcd b (Int.tmod a b) := by
  by_cases hb : b = 0
  · subst hb; simp [Fraction.gcd, Fraction.gcdAux]
  · have hlt : (Int.tmod a b).natAbs < b.natAbs := by
      rw [Fraction.natAbs_tmod]
      exact Nat.mod_lt _ (Int.natAbs_pos.mpr hb)
    rw [if_neg hb]
    unfold Fraction.gcd
    rw [show Fraction.gcdAux (b.natAbs + 1) a b = Fraction.gcdAux b.natAbs b (Int.tmod a b) by
      simp [Fraction.gcdAux, hb]]
    exact Fraction.gcdAux_congr b.natAbs ((Int.tmod a b).natAbs + 1) b (Int.tmod a b) hlt
      (Nat.lt_succ_self _)

/-! ## The constructor: canonical form and value -/

theorem Fraction.make_zero_den (n : Int) : Fraction.make n 0 = .error .divisionByZero := by
  simp [Fraction.make]

theorem Fraction.make_pos_ok (n d : Int) (hd : 0 < d) :
    ∃ f, Fraction.make n d = .ok f ∧ f.WF ∧ f.val = (n : ℚ) / (d : ℚ) := by
  have hd0 : d ≠ 0 := hd.ne'
  have hdneg : ¬d < 0 := not_lt.mpr hd.le
  unfold Fraction.make
  rw [if_neg hd0]
  simp only [if_neg hdneg]
  by_cases hn : n = 0
  · subst hn
    simp only [if_pos rfl]
    exact ⟨⟨0, 1⟩, rfl, ⟨one_pos, Or.inl ⟨rfl, rfl⟩⟩, by simp [Fraction.val]⟩
  · rw [if_neg hn]
    have hgcast : Fraction.gcd ((n.natAbs : Nat) : Int) ((d.natAbs : Nat) : Int)
        = ((Nat.gcd n.natAbs d.natAbs : Nat) : Int) := Fraction.gcd_natCast _ _
    rw [hgcast]
    set G : Int := ((Nat.gcd n.natAbs d.natAbs : Nat) : Int) with hGdef
    have hGpos : 0 < Nat.gcd n.natAbs d.natAbs :=
      Nat.gcd_pos_of_pos_right _ (Int.natAbs_pos.mpr hd0)
    have hGpos' : 0 < G := by rw [hGdef]; exact_mod_cast hGpos
    have hdvdn : G ∣ n := by
      rw [hGdef]
      exact Int.dvd_natAbs.mp (Int.natCast_dvd_natCast.mpr (Nat.gcd_dvd_left _ _))
    have hdvdd : G ∣ d := by
      rw [hGdef]
      exact Int.dvd_natAbs.mp (Int.natCast_dvd_natCast.mpr (Nat.gcd_dvd_right _ _))
    have hGne : G ≠ 0 := hGpos'.ne'
    refine ⟨⟨n / G, d / G⟩, rfl, ⟨?_, Or.inr ?_⟩, ?_⟩
    · obtain ⟨k, hk⟩ := hdvdd
      have hdk : d / G = k := by rw [hk, Int.mul_ediv_cancel_left _ hGne]
      rw [hdk]
      nlinarith [hk ▸ hd]
    · show Nat.gcd (n / G).natAbs (d / G).natAbs = 1
      rw [Int.natAbs_ediv n _ hdvdn, Int.natAbs_ediv d _ hdvdd, hGdef, Int.natAbs_ofNat]
      exact Nat.coprime_div_gcd_div_gcd hGpos
    · show ((n / G : Int) : ℚ) / ((d / G : Int) : ℚ) = (n : ℚ) / (d : ℚ)
      rw [Int.cast_div_charZero hdvdn, Int.cast_div_charZero hdvdd]
      have hGQ : (G : ℚ) ≠ 0 := by exact_mod_cast hGne
      have hdQ : (d : ℚ) ≠ 0 := by exact_mod_cast hd0
      field_simp

theorem Fraction.make_neg_flip (n d : Int) (hd : d < 0) :
    Fraction.make n d = Fraction.make (-n) (-d) := by
  have h1 : d ≠ 0 := hd.ne
  have h2 : ¬(-d = 0) := by omega
  have h3 : ¬(-d < 0) := by omega
  unfold Fraction.make
  rw [if_neg h1, if_neg h2]
  simp only [if_pos hd, if_neg h3]

theorem Fraction.make_ok (n d : Int) (hd : d ≠ 0) :
    ∃ f, Fraction.make n d = .ok f ∧ f.WF ∧ f.val = (n : ℚ) / (d : ℚ) := by
  rcases lt_or_gt_of_ne hd with hneg | hpos
  · rw [Fraction.make_neg_flip n d hneg]
    obtain ⟨f, hf, hwf, hval⟩ := Fraction.make_pos_ok (-n) (-d) (by omega)
    refine ⟨f, hf, hwf, ?_⟩
    rw [hval]
    push_cast
    rw [neg_div_neg_eq]
  · exact Fraction.make_pos_ok n d hpos

theorem Fraction.make_wf_val {n d : Int} {f : Fraction} (h : Fraction.make n d = .ok f) :
    f.WF ∧ f.val = (n : ℚ) / (d : ℚ) := by
  by_cases hd : d = 0
  · subst hd
    rw [Fraction.make_zero_den] at h
    exact absurd h (by simp)
  · obtain ⟨g, hg, hwf, hval⟩ := Fraction.make_ok n d hd
    rw [hg] at h
    cases h
    exact ⟨hwf, hval⟩

theorem Fraction.make_ok_iff (n d : Int) : (∃ f, Fraction.make n d = .ok f) ↔ d ≠ 0 := by
  constructor
  · rintro ⟨f, hf⟩ rfl
    rw [Fraction.make_zero_den] at hf
    exact absurd hf (by simp)
  · intro hd
    obtain ⟨f, hf, -, -⟩ := Fraction.make_ok n d hd
    exact ⟨f, hf⟩

/-! ## Canonical form is unique -/

theorem Fraction.WF.coprime {f : Fraction} (h : f.WF) :
    Nat.Coprime f.numerator.natAbs f.denominator.natAbs := by
  rcases h.2 with ⟨h1, h2⟩ | h2
  · rw [h1, h2]
    rfl
  · exact h2

theorem Fraction.val_inj {f g : Fraction} (hf : f.WF) (hg : g.WF) (h : f.val = g.val) :
    f = g := by
  obtain ⟨h1, h2⟩ := Rat.div_int_inj hf.1 hg.1 hf.coprime hg.coprime h
  cases f
  cases g
  simp_all

/-! ## Integer coercion -/

theorem Fraction.wf_ofInt (k : Int) : (Fraction.ofInt k).WF :=
  ⟨one_pos, Or.inr (Nat.gcd_one_right _)⟩

theorem Fraction.val_ofInt (k : Int) : (Fraction.ofInt k).val = (k : ℚ) := by
  simp [Fraction.val, Fraction.ofInt]

theorem Fraction.make_intCast (k : Int) : Fraction.make k 1 = .ok (Fraction.ofInt k) := by
  obtain ⟨f, hf, hwf, hval⟩ := Fraction.make_ok k 1 one_ne_zero
  rw [hf]
  have : f = Fraction.ofInt k := by
    apply Fraction.val_inj hwf (Fraction.wf_ofInt k)
    rw [hval, Fraction.val_ofInt]
    norm_num
  rw [this]

/-! ## lcm on positive denominators -/

theorem Fraction.lcm_spec (a b : Int) (ha : 0 < a) (hb : 0 < b) :
    Fraction.lcm a b = ((Nat.lcm a.natAbs b.natAbs : Nat) : Int) := by
  unfold Fraction.lcm
  have h1 : Fraction.gcd a b = ((Nat.gcd a.natAbs b.natAbs : Nat) : Int) := by
    have h := Fraction.gcd_natCast a.natAbs b.natAbs
    rw [Int.natAbs_of_nonneg ha.le, Int.natAbs_of_nonneg hb.le] at h
    exact h
  rw [h1, Int.natAbs_mul, ← Int.ofNat_ediv]
  congr 1

theorem Fraction.dvd_lcm_left' (a b : Int) (ha : 0 < a) (hb : 0 < b) :
    a ∣ Fraction.lcm a b := by
  rw [Fraction.lcm_spec a b ha hb]
  have := Int.natCast_dvd_natCast.mpr (Nat.dvd_lcm_left a.natAbs b.natAbs)
  rwa [Int.natAbs_of_nonneg ha.le] at this

theorem Fraction.dvd_lcm_right' (a b : Int) (ha : 0 < a) (hb : 0 < b) :
    b ∣ Fraction.lcm a b := by
  rw [Fraction.lcm_spec a b ha hb]
  have := Int.natCast_dvd_natCast.mpr (Nat.dvd_lcm_right a.natAbs b.natAbs)
  rwa [Int.natAbs_of_nonneg hb.le] at this

theorem Fraction.lcm_pos' (a b : Int) (ha : 0 < a) (hb : 0 < b) :
    0 < Fraction.lcm a b := by
  rw [Fraction.lcm_spec a b ha hb]
  have : Nat.lcm a.natAbs b.natAbs ≠ 0 :=
    Nat.lcm_ne_zero (Int.natAbs_pos.mpr ha.ne').ne' (Int.natAbs_pos.mpr hb.ne').ne'
  exact_mod_cast Nat.pos_of_ne_zero this

/-! ## Arithmetic operations: success, canonical form, value -/

theorem Fraction.add_ok (a b : Fraction) (ha : a.WF) (hb : b.WF) :
    ∃ c, Fraction.add a b = .ok c ∧ c.WF ∧ c.val = a.val + b.val := by
  have hda := ha.1
  have hdb := hb.1
  have hl : 0 < Fraction.lcm a.denominator b.denominator := Fraction.lcm_pos' _ _ hda hdb
  obtain ⟨c, hc, hwf, hval⟩ := Fraction.make_ok
    (a.numerator * (Fraction.lcm a.denominator b.denominator / a.denominator)
      + b.numerator * (Fraction.lcm a.denominator b.denominator / b.denominator))
    (Fraction.lcm a.denominator b.denominator) hl.ne'
  refine ⟨c, hc, hwf, ?_⟩
  rw [hval]
  have h1 := Fraction.dvd_lcm_left' _ _ hda hdb
  have h2 := Fraction.dvd_lcm_right' _ _ hda hdb
  unfold Fraction.val
  push_cast [Int.cast_div_charZero h1, Int.cast_div_charZero h2]
  have hlQ : ((Fraction.lcm a.denominator b.denominator : Int) : ℚ) ≠ 0 := by
    exact_mod_cast hl.ne'
  have haQ : ((a.denominator : Int) : ℚ) ≠ 0 := by exact_mod_cast hda.ne'
  have hbQ : ((b.denominator : Int) : ℚ) ≠ 0 := by exact_mod_cast hdb.ne'
  field_simp
  ring

theorem Fraction.subtract_ok (a b : Fraction) (ha : a.WF) (hb : b.WF) :
    ∃ c, Fraction.subtract a b = .ok c ∧ c.WF ∧ c.val = a.val - b.val := by
  have hda := ha.1
  have hdb := hb.1
  have hl : 0 < Fraction.lcm a.denominator b.denominator := Fraction.lcm_pos' _ _ hda hdb
  obtain ⟨c, hc, hwf, hval⟩ := Fraction.make_ok
    (a.numerator * (Fraction.lcm a.denominator b.denominator / a.denominator)
      - b.numerator * (Fraction.lcm a.denominator b.denominator / b.denominator))
    (Fraction.lcm a.denominator b.denominator) hl.ne'
  refine ⟨c, hc, hwf, ?_⟩
  rw [hval]
  have h1 := Fraction.dvd_lcm_left' _ _ hda hdb
  have h2 := Fraction.dvd_lcm_right' _ _ hda hdb
  unfold Fraction.val
  push_cast [Int.cast_div_charZero h1, Int.cast_div_charZero h2]
  have hlQ : ((Fraction.lcm a.denominator b.denominator : Int) : ℚ) ≠ 0 := by
    exact_mod_cast hl.ne'
  have haQ : ((a.denominator : Int) : ℚ) ≠ 0 := by exact_mod_cast hda.ne'
  have hbQ : ((b.denominator : Int) : ℚ) ≠ 0 := by exact_mod_cast hdb.ne'
  field_simp
  ring

theorem Fraction.multiply_ok (a b : Fraction) (ha : a.WF) (hb : b.WF) :
    ∃ c, Fraction.multiply a b = .ok c ∧ c.WF ∧ c.val = a.val * b.val := by
  have hd : (0 : Int) < a.denominator * b.denominator := mul_pos ha.1 hb.1
  obtain ⟨c, hc, hwf, hval⟩ := Fraction.make_ok (a.numerator * b.numerator)
    (a.denominator * b.denominator) hd.ne'
  refine ⟨c, hc, hwf, ?_⟩
  rw [hval]
  unfold Fraction.val
  push_cast
  rw [div_mul_div_comm]

theorem Fraction.divide_ok (a b : Fraction) (ha : a.WF) (hb : b.WF)
    (hbz : b.numerator ≠ 0) :
    ∃ c, Fraction.divide a b = .ok c ∧ c.WF ∧ c.val = a.val / b.val := by
  have hd : a.denominator * b.numerator ≠ 0 := mul_ne_zero ha.1.ne' hbz
  obtain ⟨c, hc, hwf, hval⟩ := Fraction.make_ok (a.numerator * b.denominator)
    (a.denominator * b.numerator) hd
  refine ⟨c, ?_, hwf, ?_⟩
  · unfold Fraction.divide
    rw [if_neg hbz]
    exact hc
  · rw [hval]
    unfold Fraction.val
    have h1 : ((a.denominator : Int) : ℚ) ≠ 0 := by exact_mod_cast ha.1.ne'
    have h2 : ((b.denominator : Int) : ℚ) ≠ 0 := by exact_mod_cast hb.1.ne'
    have h3 : ((b.numerator : Int) : ℚ) ≠ 0 := by exact_mod_cast hbz
    push_cast
    field_simp

theorem Fraction.abs_ok (a : Fraction) (ha : a.WF) :
    ∃ c, Fraction.abs a = .ok c ∧ c.WF ∧ c.val = |a.val| := by
  obtain ⟨c, hc, hwf, hval⟩ := Fraction.make_ok (a.numerator.natAbs : Int)
    a.denominator ha.1.ne'
  refine ⟨c, hc, hwf, ?_⟩
  rw [hval]
  unfold Fraction.val
  push_cast [Int.cast_natAbs]
  rw [abs_div, abs_of_pos (show (0 : ℚ) < (a.denominator : ℚ) by exact_mod_cast ha.1)]

theorem Fraction.negate_ok (a : Fraction) (ha : a.WF) :
    ∃ c, Fraction.negate a = .ok c ∧ c.WF ∧ c.val = -a.val := by
  obtain ⟨c, hc, hwf, hval⟩ := Fraction.make_ok (-a.numerator) a.denominator ha.1.ne'
  refine ⟨c, hc, hwf, ?_⟩
  rw [hval]
  unfold Fraction.val
  push_cast
  rw [neg_div]

/-! ## Near-zero facts -/

theorem Fraction.isNearZero_iff_val {f : Fraction} (hd : 0 < f.denominator) :
    f.isNearZero = true ↔ |f.val| < Fraction.eps := by
  unfold Fraction.isNearZero Fraction.val Fraction.eps
  rw [decide_eq_true_iff]
  rw [abs_div, abs_of_pos (show (0 : ℚ) < (f.denominator : ℚ) by exact_mod_cast hd)]
  rw [div_lt_div_iff₀ (by exact_mod_cast hd) (by norm_num)]
  rw [show |(f.numerator : ℚ)| = ((f.numerator.natAbs : Nat) : ℚ) by
    rw [Int.cast_natAbs, Int.cast_abs]]
  rw [show ((f.denominator : Int) : ℚ) = ((f.denominator.natAbs : Nat) : ℚ) by
    rw [Int.cast_natAbs, abs_of_pos hd]]
  constructor <;> intro h
  · calc ((f.numerator.natAbs : Nat) : ℚ) * 10000000000
        = ((10000000000 * f.numerator.natAbs : Nat) : ℚ) := by push_cast; ring
      _ < ((f.denominator.natAbs : Nat) : ℚ) := by exact_mod_cast h
      _ = 1 * ((f.denominator.natAbs : Nat) : ℚ) := by ring
  · have h2 : ((10000000000 * f.numerator.natAbs : Nat) : ℚ)
        < ((f.denominator.natAbs : Nat) : ℚ) := by
      calc ((10000000000 * f.numerator.natAbs : Nat) : ℚ)
          = ((f.numerator.natAbs : Nat) : ℚ) * 10000000000 := by push_cast; ring
        _ < 1 * ((f.denominator.natAbs : Nat) : ℚ) := h
        _ = ((f.denominator.natAbs : Nat) : ℚ) := by ring
    exact_mod_cast h2

theorem Fraction.absGt_iff_val {a b : Fraction} (ha : 0 < a.denominator)
    (hb : 0 < b.denominator) : Fraction.absGt a b = true ↔ |b.val| < |a.val| := by
  unfold Fraction.absGt Fraction.val
  rw [decide_eq_true_iff]
  rw [abs_div, abs_div,
    abs_of_pos (show (0 : ℚ) < (a.denominator : ℚ) by exact_mod_cast ha),
    abs_of_pos (show (0 : ℚ) < (b.denominator : ℚ) by exact_mod_cast hb)]
  rw [div_lt_div_iff₀ (by exact_mod_cast hb) (by exact_mod_cast ha)]
  rw [show |(a.numerator : ℚ)| = ((a.numerator.natAbs : Nat) : ℚ) by
      rw [Int.cast_natAbs, Int.cast_abs],
    show |(b.numerator : ℚ)| = ((b.numerator.natAbs : Nat) : ℚ) by
      rw [Int.cast_natAbs, Int.cast_abs],
    show ((a.denominator : Int) : ℚ) = ((a.denominator.natAbs : Nat) : ℚ) by
      rw [Int.cast_natAbs, abs_of_pos ha],
    show ((b.denominator : Int) : ℚ) = ((b.denominator.natAbs : Nat) : ℚ) by
      rw [Int.cast_natAbs, abs_of_pos hb]]
  constructor <;> intro h <;> exact_mod_cast h

theorem Fraction.isNearZero_of_num_zero {f : Fraction} (hd : f.denominator ≠ 0)
    (h : f.numerator = 0) : f.isNearZero = true := by
  unfold Fraction.isNearZero
  rw [h]
  simp [Int.natAbs_pos.mpr hd]

theorem Fraction.num_ne_zero_of_not_nearZero {f : Fraction} (hd : f.denominator ≠ 0)
    (h : f.isNearZero = false) : f.numerator ≠ 0 := by
  intro h0
  rw [Fraction.isNearZero_of_num_zero hd h0] at h
  cases h

theorem Fraction.wf_zeroFrac : (⟨0, 1⟩ : Fraction).WF := ⟨one_pos, Or.inl ⟨rfl, rfl⟩⟩

theorem Fraction.val_zeroFrac : (⟨0, 1⟩ : Fraction).val = 0 := by
  simp [Fraction.val]

theorem Fraction.val_oneFrac : (⟨1, 1⟩ : Fraction).val = 1 := by
  simp [Fraction.val]

theorem Fraction.val_ne_zero {f : Fraction} (hf : f.WF) (h : f.numerator ≠ 0) :
    f.val ≠ 0 := by
  unfold Fraction.val
  have h1 : ((f.numerator : Int) : ℚ) ≠ 0 := by exact_mod_cast h
  have h2 : ((f.denominator : Int) : ℚ) ≠ 0 := by exact_mod_cast hf.1.ne'
  exact div_ne_zero h1 h2

/-- C1: every value produced by the constructor, or by any arithmetic operation
(add, subtract, multiply, divide, abs, negate) on canonical-form inputs, again
satisfies the canonical-form invariant: positive denominator and either
numerator 0 with denominator 1 or coprime components. -/
theorem C1_canonical_form :
    (∀ (n d : Int) (f : Fraction), Fraction.make n d = .ok f → f.WF) ∧
    (∀ a b c : Fraction, a.WF → b.WF → Fraction.add a b = .ok c → c.WF) ∧
    (∀ a b c : Fraction, a.WF → b.WF → Fraction.subtract a b = .ok c → c.WF) ∧
    (∀ a b c : Fraction, a.WF → b.WF → Fraction.multiply a b = .ok c → c.WF) ∧
    (∀ a b c : Fraction, a.WF → b.WF → Fraction.divide a b = .ok c → c.WF) ∧
    (∀ a c : Fraction, a.WF → Fraction.abs a = .ok c → c.WF) ∧
    (∀ a c : Fraction, a.WF → Fraction.negate a = .ok c → c.WF) := by
  refine ⟨?_, ?_, ?_, ?_, ?_, ?_, ?_⟩
  · intro n d f h
    exact (Fraction.make_wf_val h).1
  · intro a b c ha hb h
    obtain ⟨c', hc', hwf, -⟩ := Fraction.add_ok a b ha hb
    rw [hc'] at h
    cases h
    exact hwf
  · intro a b c ha hb h
    obtain ⟨c', hc', hwf, -⟩ := Fraction.subtract_ok a b ha hb
    rw [hc'] at h
    cases h
    exact hwf
  · intro a b c ha hb h
    obtain ⟨c', hc', hwf, -⟩ := Fraction.multiply_ok a b ha hb
    rw [hc'] at h
    cases h
    exact hwf
  · intro a b c ha hb h
    by_cases hbz : b.numerator = 0
    · unfold Fraction.divide at h
      rw [if_pos hbz] at h
      cases h
    · obtain ⟨c', hc', hwf, -⟩ := Fraction.divide_ok a b ha hb hbz
      rw [hc'] at h
      cases h
      exact hwf
  · intro a c ha h
    obtain ⟨c', hc', hwf, -⟩ := Fraction.abs_ok a ha
    rw [hc'] at h
    cases h
    exact hwf
  · intro a c ha h
    obtain ⟨c', hc', hwf, -⟩ := Fraction.negate_ok a ha
    rw [hc'] at h
    cases h
    exact hwf

/-- Witness for C1 at concrete inputs: `new Fraction(6, -4)` yields `-3/2`, in
canonical form, and `add(-3/2, 1/6)` yields `-4/3`, in canonical form. -/
theorem C1_canonical_form_witness :
    (⟨-3, 2⟩ : Fraction).WF ∧ (⟨-4, 3⟩ : Fraction).WF :=
  ⟨C1_canonical_form.1 6 (-4) ⟨-3, 2⟩ (by decide),
   C1_canonical_form.2.1 ⟨-3, 2⟩ ⟨1, 6⟩ ⟨-4, 3⟩ (by decide) (by decide) (by decide)⟩

/-- C5: constructing with denominator 0 fails with DivisionByZero for every
numerator; `divide` fails with DivisionByZero exactly when the divisor is a
zero-valued Rational (or the coerced number 0); in every other case both
operations return a value. -/
theorem C5_division_by_zero :
    (∀ n : Int, Fraction.make n 0 = .error .divisionByZero) ∧
    (∀ n d : Int, d ≠ 0 → ∃ f, Fraction.make n d = .ok f) ∧
    (∀ a b : Fraction, a.WF → b.WF →
      ((b.numerator = 0 → Fraction.divide a b = .error .divisionByZero) ∧
       (b.numerator ≠ 0 → ∃ c, Fraction.divide a b = .ok c))) ∧
    (∀ a : Fraction, Fraction.divide a (Fraction.ofInt 0) = .error .divisionByZero) := by
  refine ⟨Fraction.make_zero_den, ?_, ?_, ?_⟩
  · intro n d hd
    exact (Fraction.make_ok_iff n d).mpr hd
  · intro a b ha hb
    constructor
    · intro hz
      unfold Fraction.divide
      rw [if_pos hz]
    · intro hz
      obtain ⟨c, hc, -, -⟩ := Fraction.divide_ok a b ha hb hz
      exact ⟨c, hc⟩
  · intro a
    unfold Fraction.divide
    rw [if_pos (show (Fraction.ofInt 0).numerator = 0 from rfl)]

/-- Witness for C5 at concrete inputs: dividing `1/2` by the nonzero `2/3`
succeeds. -/
theorem C5_division_by_zero_witness :
    ∃ c, Fraction.divide ⟨1, 2⟩ ⟨2, 3⟩ = .ok c :=
  (C5_division_by_zero.2.2.1 ⟨1, 2⟩ ⟨2, 3⟩ (by decide) (by decide)).2 (by decide)

/-- C6: for canonical-form `a`, `b`: `subtract(add(a, b), b)` returns `a`
itself, and when `b` is nonzero `multiply(divide(a, b), b)` returns `a`
itself (structural equality of canonical forms). -/
theorem C6_round_trip (a b : Fraction) (ha : a.WF) (hb : b.WF) :
    (Fraction.add a b >>= fun c => Fraction.subtract c b) = .ok a ∧
    (b.numerator ≠ 0 →
      (Fraction.divide a b >>= fun c => Fraction.multiply c b) = .ok a) := by
  constructor
  · obtain ⟨c, hc, hcwf, hcval⟩ := Fraction.add_ok a b ha hb
    rw [hc]
    show Fraction.subtract c b = .ok a
    obtain ⟨d, hd, hdwf, hdval⟩ := Fraction.subtract_ok c b hcwf hb
    rw [hd]
    have : d = a := by
      apply Fraction.val_inj hdwf ha
      rw [hdval, hcval]
      ring
    rw [this]
  · intro hbz
    obtain ⟨c, hc, hcwf, hcval⟩ := Fraction.divide_ok a b ha hb hbz
    rw [hc]
    show Fraction.multiply c b = .ok a
    obtain ⟨d, hd, hdwf, hdval⟩ := Fraction.multiply_ok c b hcwf hb
    rw [hd]
    have hbv : b.val ≠ 0 := Fraction.val_ne_zero hb hbz
    have : d = a := by
      apply Fraction.val_inj hdwf ha
      rw [hdval, hcval]
      exact div_mul_cancel₀ a.val hbv
    rw [this]

/-- Witness for C6 at concrete inputs `a = 1/2`, `b = -2/3`. -/
theorem C6_round_trip_witness :
    (Fraction.add ⟨1, 2⟩ ⟨-2, 3⟩ >>= fun c => Fraction.subtract c ⟨-2, 3⟩) = .ok ⟨1, 2⟩ ∧
    (Fraction.divide ⟨1, 2⟩ ⟨-2, 3⟩ >>= fun c => Fraction.multiply c ⟨-2, 3⟩) = .ok ⟨1, 2⟩ := by
  have h := C6_round_trip ⟨1, 2⟩ ⟨-2, 3⟩ (by decide) (by decide)
  exact ⟨h.1, h.2 (by decide)⟩

/-! ## The classifier -/

theorem classifyRows_eq (cols : Nat) :
    ∀ (rows : Mat) (a b : Nat),
      classifyRows cols rows a b =
        (a + rows.countP (fun row => rowHasCoeff cols row),
         b + rows.countP (fun row => rowHasAny row)) := by
  intro rows
  induction rows with
  | nil => intro a b; simp [classifyRows]
  | cons row rest ih =>
    intro a b
    rw [show classifyRows cols (row :: rest) a b =
        classifyRows cols rest
          (if rowHasCoeff cols row then a + 1 else a)
          (if rowHasAny row then b + 1 else b) from rfl]
    rw [ih]
    rw [List.countP_cons, List.countP_cons]
    simp only [Prod.mk.injEq]
    constructor <;> split <;> omega

/-- C2 (amended): the classifier returns `none` when `rankA < rankAugmented`,
else `infinite` when `rankA < columnCount - 1`, else `unique`, where the two
ranks count rows with a non-near-zero entry among the non-last columns resp.
anywhere; concretely `[[1,0,5],[0,1,3]]` is `unique`, `[[1,1,2],[1,1,2]]` is
`unique` (both duplicate rows are counted, so `rankA = 2 = columnCount - 1`),
and `[[1,1,2],[0,0,5]]` is `none`. -/
theorem C2_classifier (m : Mat) (hm : m ≠ []) :
    (classifyAugmentedSystemFractions m =
      if rankA m < rankAugmented m then .none
      else if rankA m < (m.getD 0 []).length - 1 then .infinite
      else .unique) ∧
    classifyAugmentedSystemFractions (numberMatrixToFractions [[1, 0, 5], [0, 1, 3]])
      = .unique ∧
    classifyAugmentedSystemFractions (numberMatrixToFractions [[1, 1, 2], [1, 1, 2]])
      = .unique ∧
    classifyAugmentedSystemFractions (numberMatrixToFractions [[1, 1, 2], [0, 0, 5]])
      = .none := by
  refine ⟨?_, by decide, by decide, by decide⟩
  simp only [classifyAugmentedSystemFractions, rankA, rankAugmented]
  rw [classifyRows_eq]
  simp

/-- Witness for C2 at a concrete non-empty matrix. -/
theorem C2_classifier_witness :
    classifyAugmentedSystemFractions (numberMatrixToFractions [[1, 0, 5], [0, 1, 3]]) =
      if rankA (numberMatrixToFractions [[1, 0, 5], [0, 1, 3]])
          < rankAugmented (numberMatrixToFractions [[1, 0, 5], [0, 1, 3]]) then .none
      else if rankA (numberMatrixToFractions [[1, 0, 5], [0, 1, 3]])
          < ((numberMatrixToFractions [[1, 0, 5], [0, 1, 3]]).getD 0 []).length - 1 then .infinite
      else .unique :=
  (C2_classifier (numberMatrixToFractions [[1, 0, 5], [0, 1, 3]]) (by decide)).1

/-- C2, counterexample to the claim as stated: the classifier maps
`[[1,1,2],[1,1,2]]` to `unique`, not `infinite` — its "ranks" count nonzero
rows, so the duplicated row is counted twice and `rankA = columnCount - 1`. -/
theorem C2_classifier_counterexample :
    classifyAugmentedSystemFractions (numberMatrixToFractions [[1, 1, 2], [1, 1, 2]])
        = .unique ∧
    classifyAugmentedSystemFractions (numberMatrixToFractions [[1, 1, 2], [1, 1, 2]])
        ≠ .infinite := by
  constructor <;> decide

/-! ## Gauss-Jordan: the near-zero-pivot branch -/

/-- C3 (amended): when the selected pivot entry is near-zero, Gauss-Jordan
advances the `currentRow` cursor by one and moves on to the NEXT column (the
current column is consumed without producing a pivot), appending no trace step
for that event — only the possible preceding swap step. -/
theorem C3_skip (rows : Nat) (m m1 : Mat) (crow maxRow : Nat)
    (steps steps1 : List FractionEliminationStep) (col : Nat) (rest : List Nat)
    (hmax : maxRow = findPivotRow m col crow rows)
    (hm1 : m1 = if maxRow ≠ crow then Mat.swapRows m crow maxRow else m)
    (hsteps1 : steps1 = if maxRow ≠ crow then
        steps ++ [⟨m1, .swap crow maxRow⟩] else steps)
    (hrow : crow < rows)
    (hnz : (Mat.entry m1 crow col).isNearZero = true) :
    gjLoop rows m crow steps (col :: rest) = gjLoop rows m1 (crow + 1) steps1 rest := by
  subst hmax
  subst hm1
  subst hsteps1
  simp only [gjLoop]
  rw [if_neg (not_le.mpr hrow)]
  simp only [hnz]
  exact if_pos trivial

/-- Witness for C3 (amended) on `[[0,2,3],[0,4,5]]`, column 0: the pivot
column is all-zero, so the scan keeps row 0, no swap happens, and the loop
proceeds to column 1 with the cursor at row 1. -/
theorem C3_skip_witness :
    gjLoop 2 (numberMatrixToFractions [[0, 2, 3], [0, 4, 5]]) 0
        [⟨numberMatrixToFractions [[0, 2, 3], [0, 4, 5]], .initial⟩] [0, 1] =
      gjLoop 2 (numberMatrixToFractions [[0, 2, 3], [0, 4, 5]]) 1
        [⟨numberMatrixToFractions [[0, 2, 3], [0, 4, 5]], .initial⟩] [1] :=
  C3_skip 2 (numberMatrixToFractions [[0, 2, 3], [0, 4, 5]])
    (numberMatrixToFractions [[0, 2, 3], [0, 4, 5]]) 0 0
    [⟨numberMatrixToFractions [[0, 2, 3], [0, 4, 5]], .initial⟩]
    [⟨numberMatrixToFractions [[0, 2, 3], [0, 4, 5]], .initial⟩] 0 [1]
    (by decide) (by decide) (by decide) (by decide) (by decide)

/-- C3, counterexample to the claim as stated ("the same column is reconsidered
with the next row"): on `[[0,2,3],[0,4,5]]` the source algorithm consumes the
skipped all-zero column 0 and goes on to reduce column 1 (yielding
`[[0,0,1/2],[0,1,5/4]]`), whereas the claimed same-column-reconsideration
stepping (`gaussJordanReconsider`) would exhaust the rows on column 0 and
return the input unchanged. -/
theorem C3_skip_counterexample :
    (gaussJordanWithFractions (numberMatrixToFractions [[0, 2, 3], [0, 4, 5]])).map
        (fun r => r.result)
      = .ok [[⟨0, 1⟩, ⟨0, 1⟩, ⟨1, 2⟩], [⟨0, 1⟩, ⟨1, 1⟩, ⟨5, 4⟩]] ∧
    (gaussJordanReconsider (numberMatrixToFractions [[0, 2, 3], [0, 4, 5]])).map
        (fun r => r.result)
      = .ok (numberMatrixToFractions [[0, 2, 3], [0, 4, 5]]) ∧
    gaussJordanWithFractions (numberMatrixToFractions [[0, 2, 3], [0, 4, 5]])
      ≠ gaussJordanReconsider (numberMatrixToFractions [[0, 2, 3], [0, 4, 5]]) := by
  refine ⟨by decide, by decide, by decide⟩

/-! ## End-to-end elimination -/

/-- C4: Gaussian elimination on `[[2,1,3,1],[3,2,1,4],[1,-1,2,3]]` followed by
back substitution yields the exact rational solution `(3, -2, -1)`, which
satisfies all three original equations exactly. -/
theorem C4_end_to_end :
    ∃ x1 x2 x3 : Fraction,
      (gaussianEliminationWithFractions
          (numberMatrixToFractions [[2, 1, 3, 1], [3, 2, 1, 4], [1, -1, 2, 3]])
        >>= fun r => extractSolutionFromREFFractions r.result) = .ok [x1, x2, x3] ∧
      2 * x1.val + 1 * x2.val + 3 * x3.val = 1 ∧
      3 * x1.val + 2 * x2.val + 1 * x3.val = 4 ∧
      1 * x1.val - 1 * x2.val + 2 * x3.val = 3 := by
  refine ⟨Fraction.ofInt 3, Fraction.ofInt (-2), Fraction.ofInt (-1), by decide, ?_, ?_, ?_⟩ <;>
    · rw [Fraction.val_ofInt, Fraction.val_ofInt, Fraction.val_ofInt]
      norm_num

/-! ## Matrix access groundwork -/

theorem getD_mem_or_default {α : Type} (l : List α) (i : Nat) (d : α) :
    l.getD i d ∈ l ∨ l.getD i d = d := by
  rcases lt_or_ge i l.length with hi | hi
  · left
    rw [List.getD_eq_getElem l d hi]
    exact List.getElem_mem hi
  · right
    exact List.getD_eq_default l d hi

theorem Mat.wf_entry {m : Mat} (h : Mat.WF m) (i j : Nat) : (Mat.entry m i j).WF := by
  unfold Mat.entry
  rcases getD_mem_or_default m i [] with hrow | hrow
  · rcases getD_mem_or_default (m.getD i []) j ⟨0, 1⟩ with hf | hf
    · exact h _ hrow _ hf
    · rw [hf]
      exact Fraction.wf_zeroFrac
  · rw [hrow]
    simp [List.getD]
    exact Fraction.wf_zeroFrac

theorem Mat.wf_set {m : Mat} (h : Mat.WF m) {row : List Fraction}
    (hrow : ∀ f ∈ row, f.WF) (i : Nat) : Mat.WF (m.set i row) := by
  intro r hr f hf
  rcases List.mem_or_eq_of_mem_set hr with hr' | hr'
  · exact h r hr' f hf
  · exact hrow f (hr' ▸ hf)

theorem Mat.rect_set {m : Mat} {cols : Nat} (h : ∀ row ∈ m, row.length = cols)
    {row : List Fraction} (hrow : row.length = cols) (i : Nat) :
    ∀ r ∈ m.set i row, r.length = cols := by
  intro r hr
  rcases List.mem_or_eq_of_mem_set hr with hr' | hr'
  · exact h r hr'
  · rw [hr']
    exact hrow

theorem Mat.swapRows_length (m : Mat) (i j : Nat) :
    (Mat.swapRows m i j).length = m.length := by
  unfold Mat.swapRows
  rw [List.length_set, List.length_set]

theorem Mat.mem_swapRows {m : Mat} {i j : Nat} (hi : i < m.length) (hj : j < m.length) :
    ∀ row ∈ Mat.swapRows m i j, row ∈ m := by
  intro row hr
  unfold Mat.swapRows at hr
  rcases List.mem_or_eq_of_mem_set hr with hr' | hr'
  · rcases List.mem_or_eq_of_mem_set hr' with hr'' | hr''
    · exact hr''
    · rw [hr'', List.getD_eq_getElem m [] hj]
      exact List.getElem_mem hj
  · rw [hr', List.getD_eq_getElem m [] hi]
    exact List.getElem_mem hi

theorem Mat.wf_swapRows {m : Mat} (h : Mat.WF m) {i j : Nat}
    (hi : i < m.length) (hj : j < m.length) : Mat.WF (Mat.swapRows m i j) :=
  fun row hr => h row (Mat.mem_swapRows hi hj row hr)

theorem Mat.rect_swapRows {m : Mat} {cols : Nat} (h : ∀ row ∈ m, row.length = cols)
    {i j : Nat} (hi : i < m.length) (hj : j < m.length) :
    ∀ row ∈ Mat.swapRows m i j, row.length = cols :=
  fun row hr => h row (Mat.mem_swapRows hi hj row hr)

theorem Mat.entry_set_ne {m : Mat} {i r : Nat} (row : List Fraction) (h : i ≠ r)
    (c : Nat) : Mat.entry (m.set i row) r c = Mat.entry m r c := by
  unfold Mat.entry
  have hr : (m.set i row).getD r [] = m.getD r [] := by
    rw [List.getD_eq_getElem?_getD, List.getElem?_set_ne h, ← List.getD_eq_getElem?_getD]
  rw [hr]

theorem Mat.entry_set_self {m : Mat} {i : Nat} (row : List Fraction)
    (h : i < m.length) (c : Nat) :
    Mat.entry (m.set i row) i c = row.getD c ⟨0, 1⟩ := by
  unfold Mat.entry
  have hr : (m.set i row).getD i [] = row := by
    rw [List.getD_eq_getElem?_getD, List.getElem?_set_self h]
    rfl
  rw [hr]

theorem Mat.set_ne_of_entry_ne {m : Mat} {i : Nat} {row : List Fraction}
    (h : i < m.length) (c : Nat)
    (hne : row.getD c ⟨0, 1⟩ ≠ (m.getD i []).getD c ⟨0, 1⟩) : m.set i row ≠ m := by
  intro heq
  apply hne
  have h1 : Mat.entry (m.set i row) i c = Mat.entry m i c := by rw [heq]
  rw [Mat.entry_set_self row h] at h1
  exact h1

theorem findPivotAux_lt {m : Mat} {col : Nat} {rows : Nat} :
    ∀ (l : List Nat) (maxRow : Nat), maxRow < rows → (∀ r ∈ l, r < rows) →
      findPivotAux m col maxRow l < rows := by
  intro l
  induction l with
  | nil => intro maxRow h _; exact h
  | cons r rest ih =>
    intro maxRow h hl
    unfold findPivotAux
    split
    · exact ih r (hl r (List.mem_cons_self r rest)) (fun x hx => hl x (List.mem_cons_of_mem r hx))
    · exact ih maxRow h (fun x hx => hl x (List.mem_cons_of_mem r hx))

theorem findPivotRow_lt {m : Mat} {col startRow rows : Nat} (h : startRow < rows) :
    findPivotRow m col startRow rows < rows := by
  unfold findPivotRow
  apply findPivotAux_lt _ _ h
  intro r hr
  have := List.mem_range'_1.mp hr
  omega

theorem exceptBind_ok {e a b : Type} (x : a) (f : a → Except e b) :
    (Except.ok x >>= f : Except e b) = f x := rfl

/-! ## Row operations: success, shape, canonical form, values -/

theorem combineWith_ok (factor : Fraction) (hfac : factor.WF) :
    ∀ (xs ys : List Fraction), xs.length = ys.length →
      (∀ f ∈ xs, f.WF) → (∀ f ∈ ys, f.WF) →
      ∃ zs, combineWith factor xs ys = .ok zs ∧ zs.length = xs.length ∧
        (∀ f ∈ zs, f.WF) ∧
        (∀ k, k < xs.length →
          (zs.getD k ⟨0, 1⟩).val
            = (xs.getD k ⟨0, 1⟩).val - factor.val * (ys.getD k ⟨0, 1⟩).val) := by
  intro xs
  induction xs with
  | nil =>
    intro ys _ _ _
    exact ⟨[], rfl, rfl, by simp, fun k hk => absurd hk (by simp)⟩
  | cons x xs ih =>
    intro ys hlen hxs hys
    match ys, hlen with
    | y :: ys, hlen =>
      have hx : x.WF := hxs x (List.mem_cons_self x xs)
      have hy : y.WF := hys y (List.mem_cons_self y ys)
      obtain ⟨p, hp, hpwf, hpval⟩ := Fraction.multiply_ok factor y hfac hy
      obtain ⟨z, hz, hzwf, hzval⟩ := Fraction.subtract_ok x p hx hpwf
      obtain ⟨zs, hzs, hzslen, hzswf, hzsval⟩ := ih ys (by simpa using hlen)
        (fun f hf => hxs f (List.mem_cons_of_mem x hf))
        (fun f hf => hys f (List.mem_cons_of_mem y hf))
      refine ⟨z :: zs, ?_, by simp [hzslen], ?_, ?_⟩
      · show (Fraction.multiply factor y >>= fun p =>
          Fraction.subtract x p >>= fun z =>
          combineWith factor xs ys >>= fun rest => pure (z :: rest)) = .ok (z :: zs)
        rw [hp, exceptBind_ok, hz, exceptBind_ok, hzs, exceptBind_ok]
        rfl
      · intro f hf
        rcases List.mem_cons.mp hf with hf | hf
        · exact hf ▸ hzwf
        · exact hzswf f hf
      · intro k hk
        match k with
        | 0 =>
          simp only [List.getD_cons_zero]
          rw [hzval, hpval]
        | k + 1 =>
          simp only [List.getD_cons_succ]
          exact hzsval k (by simpa using hk)

theorem combineFrom_ok (factor : Fraction) (hfac : factor.WF)
    (target pivotRow : List Fraction) (start : Nat)
    (hlen : target.length = pivotRow.length)
    (hstart : start ≤ target.length)
    (htg : ∀ f ∈ target, f.WF) (hpv : ∀ f ∈ pivotRow, f.WF) :
    ∃ zs, combineFrom factor target pivotRow start = .ok zs ∧
      zs.length = target.length ∧ (∀ f ∈ zs, f.WF) ∧
      (∀ k, k < start → zs.getD k ⟨0, 1⟩ = target.getD k ⟨0, 1⟩) ∧
      (∀ k, start ≤ k → k < target.length →
        (zs.getD k ⟨0, 1⟩).val
          = (target.getD k ⟨0, 1⟩).val - factor.val * (pivotRow.getD k ⟨0, 1⟩).val) := by
  obtain ⟨suffix, hsf, hsflen, hsfwf, hsfval⟩ :=
    combineWith_ok factor hfac (target.drop start) (pivotRow.drop start)
      (by simp [hlen]) (fun f hf => htg f (List.mem_of_mem_drop hf))
      (fun f hf => hpv f (List.mem_of_mem_drop hf))
  have htake : (target.take start).length = start := by
    rw [List.length_take]
    omega
  refine ⟨target.take start ++ suffix, ?_, ?_, ?_, ?_, ?_⟩
  · show (combineWith factor (target.drop start) (pivotRow.drop start) >>= fun suffix =>
      pure (target.take start ++ suffix)) = _
    rw [hsf, exceptBind_ok]
    rfl
  · rw [List.length_append, htake, hsflen, List.length_drop]
    omega
  · intro f hf
    rcases List.mem_append.mp hf with hf | hf
    · exact htg f (List.mem_of_mem_take hf)
    · exact hsfwf f hf
  · intro k hk
    rw [List.getD_eq_getElem?_getD,
      List.getElem?_append_left (by omega : k < (target.take start).length),
      List.getElem?_take_of_lt hk, ← List.getD_eq_getElem?_getD]
  · intro k hks hkl
    have h1 : (target.take start ++ suffix).getD k ⟨0, 1⟩
        = suffix.getD (k - start) ⟨0, 1⟩ := by
      rw [List.getD_eq_getElem?_getD,
        List.getElem?_append_right (by omega : (target.take start).length ≤ k),
        htake, ← List.getD_eq_getElem?_getD]
    have h2 : (target.drop start).getD (k - start) ⟨0, 1⟩ = target.getD k ⟨0, 1⟩ := by
      rw [List.getD_eq_getElem?_getD, List.getElem?_drop,
        (by omega : start + (k - start) = k), ← List.getD_eq_getElem?_getD]
    have h3 : (pivotRow.drop start).getD (k - start) ⟨0, 1⟩ = pivotRow.getD k ⟨0, 1⟩ := by
      rw [List.getD_eq_getElem?_getD, List.getElem?_drop,
        (by omega : start + (k - start) = k), ← List.getD_eq_getElem?_getD]
    rw [h1, ← h2, ← h3]
    apply hsfval
    rw [List.length_drop]
    omega

theorem mapScale_ok (sf : Fraction) (hsf : sf.WF) :
    ∀ row : List Fraction, (∀ f ∈ row, f.WF) →
      ∃ zs, mapRowM (fun x => Fraction.multiply sf x) row = .ok zs ∧
        zs.length = row.length ∧ (∀ f ∈ zs, f.WF) ∧
        (∀ k, k < row.length →
          (zs.getD k ⟨0, 1⟩).val = sf.val * (row.getD k ⟨0, 1⟩).val) := by
  intro row
  induction row with
  | nil =>
    intro _
    exact ⟨[], rfl, rfl, by simp, fun k hk => absurd hk (by simp)⟩
  | cons x xs ih =>
    intro hrow
    have hx : x.WF := hrow x (List.mem_cons_self x xs)
    obtain ⟨y, hy, hywf, hyval⟩ := Fraction.multiply_ok sf x hsf hx
    obtain ⟨ys, hys, hyslen, hyswf, hysval⟩ := ih (fun f hf => hrow f (List.mem_cons_of_mem x hf))
    refine ⟨y :: ys, ?_, by simp [hyslen], ?_, ?_⟩
    · show (Fraction.multiply sf x >>= fun y =>
        mapRowM (fun x => Fraction.multiply sf x) xs >>= fun ys => pure (y :: ys)) = _
      rw [hy, exceptBind_ok, hys, exceptBind_ok]
      rfl
    · intro f hf
      rcases List.mem_cons.mp hf with hf | hf
      · exact hf ▸ hywf
      · exact hyswf f hf
    · intro k hk
      match k with
      | 0 =>
        simp only [List.getD_cons_zero]
        rw [hyval]
      | k + 1 =>
        simp only [List.getD_cons_succ]
        exact hysval k (by simpa using hk)

/-! ## Trace-chain machinery -/

theorem chainOk_append_singleton :
    ∀ (l : List FractionEliminationStep) (s : FractionEliminationStep),
      chainOk l → (∀ t, l.getLast? = some t → stepOk t s) → chainOk (l ++ [s])
  | [], _, _, _ => trivial
  | [a], s, _, hs => ⟨hs a rfl, trivial⟩
  | a :: b :: t, s, h, hs =>
    ⟨h.1, chainOk_append_singleton (b :: t) s h.2
      (fun u hu => hs u (by rw [List.getLast?_cons_cons]; exact hu))⟩

theorem head?_append_of_some {α : Type} {l : List α} {x : α} (h : l.head? = some x)
    (r : List α) : (l ++ r).head? = some x := by
  cases l with
  | nil => cases h
  | cons a t => exact h

theorem LoopInv.append {m0 : Mat} {rows cols : Nat} {m : Mat}
    {steps : List FractionEliminationStep}
    (inv : LoopInv m0 rows cols m steps) (m' : Mat) (op : Op)
    (hlen : m'.length = rows) (hrect : ∀ row ∈ m', row.length = cols)
    (hwf : Mat.WF m')
    (hok : (∃ i j, op = Op.swap i j) ∨ m' ≠ m) :
    LoopInv m0 rows cols m' (steps ++ [⟨m', op⟩]) where
  len := hlen
  rect := hrect
  wf := hwf
  head := head?_append_of_some inv.head _
  lastm := ⟨⟨m', op⟩, by rw [List.getLast?_concat], rfl⟩
  chain := by
    apply chainOk_append_singleton _ _ inv.chain
    intro t ht
    obtain ⟨s, hs, hsm⟩ := inv.lastm
    rw [hs] at ht
    cases ht
    rcases hok with h | h
    · exact Or.inl h
    · exact Or.inr (by rw [hsm]; exact h)
  shapes := by
    intro s hs
    rcases List.mem_append.mp hs with h | h
    · exact inv.shapes s h
    · rw [List.mem_singleton.mp h]
      exact ⟨hlen, hrect⟩

theorem entry_bounds_of_not_nearZero {m : Mat} {r c : Nat}
    (h : (Mat.entry m r c).isNearZero = false) :
    r < m.length ∧ c < (m.getD r []).length := by
  constructor
  · by_contra hr
    push_neg at hr
    rw [show Mat.entry m r c = ⟨0, 1⟩ by
      unfold Mat.entry
      rw [List.getD_eq_default _ _ hr]
      rfl] at h
    exact absurd h (by decide)
  · by_contra hc
    push_neg at hc
    rw [show Mat.entry m r c = ⟨0, 1⟩ by
      unfold Mat.entry
      rw [List.getD_eq_default _ _ hc]] at h
    exact absurd h (by decide)

theorem Fraction.wf_oneFrac : (⟨1, 1⟩ : Fraction).WF := by decide

theorem Mat.getD_mem {m : Mat} {i : Nat} (h : i < m.length) : m.getD i [] ∈ m := by
  rw [List.getD_eq_getElem m [] h]
  exact List.getElem_mem h

/-- An entry whose numerator is nonzero is not the canonical zero. -/
theorem Fraction.ne_zeroFrac_of_num_ne_zero {f : Fraction} (h : f.numerator ≠ 0) :
    f ≠ ⟨0, 1⟩ := by
  intro he
  rw [he] at h
  exact h rfl

/-! ## Gaussian elimination: inner loop -/

theorem geElimBelow_master (m0 : Mat) (rows cols : Nat) (col : Nat) :
    ∀ (rowList : List Nat) (m : Mat) (steps : List FractionEliminationStep),
      LoopInv m0 rows cols m steps →
      (Mat.entry m col col).isNearZero = false →
      (∀ r ∈ rowList, r ≠ col) →
      ∃ m' steps', geElimBelow col m steps rowList = .ok (m', steps') ∧
        LoopInv m0 rows cols m' steps' ∧
        Mat.entry m' col col = Mat.entry m col col := by
  intro rowList
  induction rowList with
  | nil =>
    intro m steps inv hpnz _
    exact ⟨m, steps, rfl, inv, rfl⟩
  | cons r rest ih =>
    intro m steps inv hpnz hne
    have hrne : r ≠ col := hne r (List.mem_cons_self r rest)
    have hne' : ∀ x ∈ rest, x ≠ col := fun x hx => hne x (List.mem_cons_of_mem r hx)
    by_cases hnz : (Mat.entry m r col).isNearZero = true
    · obtain ⟨m', steps', heq, hinv', hpres⟩ := ih m steps inv hpnz hne'
      refine ⟨m', steps', ?_, hinv', hpres⟩
      show geElimBelow col m steps (r :: rest) = .ok (m', steps')
      rw [show geElimBelow col m steps (r :: rest) = geElimBelow col m steps rest by
        simp only [geElimBelow, hnz, if_true]]
      exact heq
    · rw [Bool.not_eq_true] at hnz
      -- bounds from the two non-near-zero entries
      obtain ⟨hrlt, hclt⟩ := entry_bounds_of_not_nearZero hnz
      obtain ⟨hcollt, hcollt2⟩ := entry_bounds_of_not_nearZero hpnz
      have hrowmem : m.getD r [] ∈ m := Mat.getD_mem hrlt
      have hpivmem : m.getD col [] ∈ m := Mat.getD_mem hcollt
      have hrowlen : (m.getD r []).length = cols := inv.rect _ hrowmem
      have hpivlen : (m.getD col []).length = cols := inv.rect _ hpivmem
      -- the two fractions involved
      have hewf : (Mat.entry m r col).WF := Mat.wf_entry inv.wf r col
      have hpwf : (Mat.entry m col col).WF := Mat.wf_entry inv.wf col col
      have henum : (Mat.entry m r col).numerator ≠ 0 :=
        Fraction.num_ne_zero_of_not_nearZero hewf.1.ne' hnz
      have hpnum : (Mat.entry m col col).numerator ≠ 0 :=
        Fraction.num_ne_zero_of_not_nearZero hpwf.1.ne' hpnz
      obtain ⟨factor, hfac, hfacwf, hfacval⟩ :=
        Fraction.divide_ok (Mat.entry m r col) (Mat.entry m col col) hewf hpwf hpnum
      obtain ⟨zs, hzs, hzslen, hzswf, hzspre, hzsval⟩ :=
        combineFrom_ok factor hfacwf (m.getD r []) (m.getD col []) col
          (by rw [hrowlen, hpivlen]) (by omega)
          (fun f hf => inv.wf _ hrowmem f hf) (fun f hf => inv.wf _ hpivmem f hf)
      -- the updated entry at (r, col) is the canonical zero
      have hcolzs : col < zs.length := by rw [hzslen]; omega
      have hnewval : (zs.getD col ⟨0, 1⟩).val = 0 := by
        rw [hzsval col le_rfl (by omega)]
        have h1 : (m.getD r []).getD col ⟨0, 1⟩ = Mat.entry m r col := rfl
        have h2 : (m.getD col []).getD col ⟨0, 1⟩ = Mat.entry m col col := rfl
        rw [h1, h2, hfacval]
        have hpv : (Mat.entry m col col).val ≠ 0 := Fraction.val_ne_zero hpwf hpnum
        field_simp
      have hnewfrac : zs.getD col ⟨0, 1⟩ = ⟨0, 1⟩ := by
        rcases getD_mem_or_default zs col ⟨0, 1⟩ with hm | hm
        · exact Fraction.val_inj (hzswf _ hm) Fraction.wf_zeroFrac
            (by rw [hnewval, Fraction.val_zeroFrac])
        · exact hm
      have hchanged : zs.getD col ⟨0, 1⟩ ≠ (m.getD r []).getD col ⟨0, 1⟩ := by
        rw [hnewfrac]
        exact (Fraction.ne_zeroFrac_of_num_ne_zero henum).symm
      have hmne : m.set r zs ≠ m := Mat.set_ne_of_entry_ne hrlt col hchanged
      have inv2 : LoopInv m0 rows cols (m.set r zs)
          (steps ++ [⟨m.set r zs, .elim factor r col⟩]) :=
        inv.append _ _ (by rw [List.length_set]; exact inv.len)
          (Mat.rect_set inv.rect (by rw [hzslen, hrowlen]) r)
          (Mat.wf_set inv.wf hzswf r) (Or.inr hmne)
      have hpres2 : Mat.entry (m.set r zs) col col = Mat.entry m col col :=
        Mat.entry_set_ne zs hrne col
      obtain ⟨m', steps', heq, hinv', hpres⟩ := ih (m.set r zs)
        (steps ++ [⟨m.set r zs, .elim factor r col⟩]) inv2
        (by rw [hpres2]; exact hpnz) hne'
      refine ⟨m', steps', ?_, hinv', by rw [hpres, hpres2]⟩
      show geElimBelow col m steps (r :: rest) = .ok (m', steps')
      rw [show geElimBelow col m steps (r :: rest)
          = (Fraction.divide (Mat.entry m r col) (Mat.entry m col col) >>= fun factor =>
             combineFrom factor (m.getD r []) (m.getD col []) col >>= fun newRow =>
             geElimBelow col (m.set r newRow)
               (steps ++ [⟨m.set r newRow, .elim factor r col⟩]) rest) by
        simp only [geElimBelow, hnz, Bool.false_eq_true, if_false]]
      rw [hfac, exceptBind_ok, hzs, exceptBind_ok]
      exact heq

/-! ## Gaussian elimination: outer loop -/

theorem geLoop_master (m0 : Mat) (rows cols : Nat) :
    ∀ (colList : List Nat) (m : Mat) (steps : List FractionEliminationStep),
      LoopInv m0 rows cols m steps →
      (∀ c ∈ colList, c < rows) →
      ∃ m' steps', geLoop rows m steps colList = .ok (m', steps') ∧
        LoopInv m0 rows cols m' steps' := by
  intro colList
  induction colList with
  | nil =>
    intro m steps inv _
    exact ⟨m, steps, rfl, inv⟩
  | cons col rest ih =>
    intro m steps inv hcl
    have hcol : col < rows := hcl col (List.mem_cons_self col rest)
    have hcl' : ∀ c ∈ rest, c < rows := fun c hc => hcl c (List.mem_cons_of_mem col hc)
    have hmaxlt : findPivotRow m col col rows < rows := findPivotRow_lt hcol
    suffices h : ∀ (m1 : Mat) (steps1 : List FractionEliminationStep),
        LoopInv m0 rows cols m1 steps1 →
        ∃ m' steps',
          (if (Mat.entry m1 col col).isNearZero then geLoop rows m1 steps1 rest
           else do
             let x ← geElimBelow col m1 steps1 (List.range' (col + 1) (rows - (col + 1)))
             geLoop rows x.1 x.2 rest) = .ok (m', steps') ∧
          LoopInv m0 rows cols m' steps' by
      by_cases hsw : findPivotRow m col col rows ≠ col
      · have inv1 : LoopInv m0 rows cols
            (Mat.swapRows m col (findPivotRow m col col rows))
            (steps ++ [⟨Mat.swapRows m col (findPivotRow m col col rows),
              .swap col (findPivotRow m col col rows)⟩]) :=
          inv.append _ _
            (by rw [Mat.swapRows_length]; exact inv.len)
            (Mat.rect_swapRows inv.rect (inv.len ▸ hcol) (inv.len ▸ hmaxlt))
            (Mat.wf_swapRows inv.wf (inv.len ▸ hcol) (inv.len ▸ hmaxlt))
            (Or.inl ⟨col, findPivotRow m col col rows, rfl⟩)
        obtain ⟨m', steps', heq, hinv'⟩ := h _ _ inv1
        refine ⟨m', steps', ?_, hinv'⟩
        rw [show geLoop rows m steps (col :: rest)
            = (if (Mat.entry (Mat.swapRows m col (findPivotRow m col col rows)) col col).isNearZero
               then geLoop rows (Mat.swapRows m col (findPivotRow m col col rows))
                 (steps ++ [⟨Mat.swapRows m col (findPivotRow m col col rows),
                   .swap col (findPivotRow m col col rows)⟩]) rest
               else do
                 let x ← geElimBelow col
                   (Mat.swapRows m col (findPivotRow m col col rows))
                   (steps ++ [⟨Mat.swapRows m col (findPivotRow m col col rows),
                     .swap col (findPivotRow m col col rows)⟩])
                   (List.range' (col + 1) (rows - (col + 1)))
                 geLoop rows x.1 x.2 rest) by
          simp only [geLoop, if_pos hsw]]
        exact heq
      · obtain ⟨m', steps', heq, hinv'⟩ := h m steps inv
        refine ⟨m', steps', ?_, hinv'⟩
        rw [show geLoop rows m steps (col :: rest)
            = (if (Mat.entry m col col).isNearZero then geLoop rows m steps rest
               else do
                 let x ← geElimBelow col m steps (List.range' (col + 1) (rows - (col + 1)))
                 geLoop rows x.1 x.2 rest) by
          simp only [geLoop, if_neg hsw]]
        exact heq
    intro m1 steps1 inv1
    by_cases hnz : (Mat.entry m1 col col).isNearZero = true
    · rw [if_pos hnz]
      exact ih m1 steps1 inv1 hcl'
    · rw [if_neg hnz]
      rw [Bool.not_eq_true] at hnz
      obtain ⟨m2, steps2, heb, inv2, -⟩ :=
        geElimBelow_master m0 rows cols col (List.range' (col + 1) (rows - (col + 1)))
          m1 steps1 inv1 hnz
          (fun r hr => by have := List.mem_range'_1.mp hr; omega)
      obtain ⟨m', steps', heq, hinv'⟩ := ih m2 steps2 inv2 hcl'
      refine ⟨m', steps', ?_, hinv'⟩
      rw [heb, exceptBind_ok]
      exact heq

/-! ## Gauss-Jordan: scaling and elimination -/

theorem gjScale_master (m0 : Mat) (rows cols : Nat) (m : Mat)
    (steps : List FractionEliminationStep) (crow col : Nat)
    (inv : LoopInv m0 rows cols m steps)
    (hpnz : (Mat.entry m crow col).isNearZero = false) :
    ∃ m2 steps2, gjScale m steps crow col = .ok (m2, steps2) ∧
      LoopInv m0 rows cols m2 steps2 ∧
      Mat.entry m2 crow col = ⟨1, 1⟩ := by
  obtain ⟨hrlt, hclt⟩ := entry_bounds_of_not_nearZero hpnz
  have hpwf : (Mat.entry m crow col).WF := Mat.wf_entry inv.wf crow col
  have hpnum : (Mat.entry m crow col).numerator ≠ 0 :=
    Fraction.num_ne_zero_of_not_nearZero hpwf.1.ne' hpnz
  by_cases heq1 : Fraction.equals (Mat.entry m crow col) (Fraction.ofInt 1) = true
  · have hp1 : Mat.entry m crow col = ⟨1, 1⟩ := by
      have := of_decide_eq_true heq1
      exact this
    refine ⟨m, steps, ?_, inv, hp1⟩
    unfold gjScale
    rw [if_pos heq1]
  · have hpne1 : Mat.entry m crow col ≠ Fraction.ofInt 1 := by
      intro h
      exact heq1 (decide_eq_true h)
    obtain ⟨sf, hsf, hsfwf, hsfval⟩ :=
      Fraction.divide_ok (Fraction.ofInt 1) (Mat.entry m crow col)
        (Fraction.wf_ofInt 1) hpwf hpnum
    have hrowmem : m.getD crow [] ∈ m := Mat.getD_mem hrlt
    have hrowlen : (m.getD crow []).length = cols := inv.rect _ hrowmem
    obtain ⟨zs, hzs, hzslen, hzswf, hzsval⟩ :=
      mapScale_ok sf hsfwf (m.getD crow []) (fun f hf => inv.wf _ hrowmem f hf)
    have hnewval : (zs.getD col ⟨0, 1⟩).val = 1 := by
      rw [hzsval col hclt, hsfval, Fraction.val_ofInt]
      have hpv : (Mat.entry m crow col).val ≠ 0 := Fraction.val_ne_zero hpwf hpnum
      have : (m.getD crow []).getD col ⟨0, 1⟩ = Mat.entry m crow col := rfl
      rw [this]
      field_simp
    have hnewfrac : zs.getD col ⟨0, 1⟩ = ⟨1, 1⟩ := by
      rcases getD_mem_or_default zs col ⟨0, 1⟩ with hm | hm
      · exact Fraction.val_inj (hzswf _ hm) Fraction.wf_oneFrac
          (by rw [hnewval, Fraction.val_oneFrac])
      · rw [hm] at hnewval
        rw [Fraction.val_zeroFrac] at hnewval
        norm_num at hnewval
    have hchanged : zs.getD col ⟨0, 1⟩ ≠ (m.getD crow []).getD col ⟨0, 1⟩ := by
      rw [hnewfrac]
      intro h
      apply hpne1
      unfold Mat.entry
      rw [← h]
      rfl
    have hmne : m.set crow zs ≠ m := Mat.set_ne_of_entry_ne hrlt col hchanged
    have inv2 : LoopInv m0 rows cols (m.set crow zs)
        (steps ++ [⟨m.set crow zs, .scale sf crow⟩]) :=
      inv.append _ _ (by rw [List.length_set]; exact inv.len)
        (Mat.rect_set inv.rect (by rw [hzslen, hrowlen]) crow)
        (Mat.wf_set inv.wf hzswf crow) (Or.inr hmne)
    refine ⟨m.set crow zs, steps ++ [⟨m.set crow zs, .scale sf crow⟩], ?_, inv2, ?_⟩
    · unfold gjScale
      rw [if_neg heq1]
      rw [hsf, exceptBind_ok, hzs, exceptBind_ok]
    · rw [Mat.entry_set_self zs hrlt col]
      exact hnewfrac

theorem gjElimOthers_master (m0 : Mat) (rows cols : Nat) (crow col : Nat) :
    ∀ (rowList : List Nat) (m : Mat) (steps : List FractionEliminationStep),
      LoopInv m0 rows cols m steps →
      Mat.entry m crow col = ⟨1, 1⟩ →
      ∃ m' steps', gjElimOthers crow col m steps rowList = .ok (m', steps') ∧
        LoopInv m0 rows cols m' steps' ∧
        Mat.entry m' crow col = ⟨1, 1⟩ := by
  intro rowList
  induction rowList with
  | nil =>
    intro m steps inv hpiv
    exact ⟨m, steps, rfl, inv, hpiv⟩
  | cons r rest ih =>
    intro m steps inv hpiv
    by_cases hrc : r = crow
    · obtain ⟨m', steps', heq, hinv', hpres⟩ := ih m steps inv hpiv
      refine ⟨m', steps', ?_, hinv', hpres⟩
      rw [show gjElimOthers crow col m steps (r :: rest) = gjElimOthers crow col m steps rest by
        simp only [gjElimOthers, if_pos hrc]]
      exact heq
    · by_cases hnz : (Mat.entry m r col).isNearZero = true
      · obtain ⟨m', steps', heq, hinv', hpres⟩ := ih m steps inv hpiv
        refine ⟨m', steps', ?_, hinv', hpres⟩
        rw [show gjElimOthers crow col m steps (r :: rest) = gjElimOthers crow col m steps rest by
          simp only [gjElimOthers, if_neg hrc, hnz, if_true]]
        exact heq
      · rw [Bool.not_eq_true] at hnz
        obtain ⟨hrlt, hclt⟩ := entry_bounds_of_not_nearZero hnz
        have hcrowlt : crow < m.length := by
          by_contra hc
          push_neg at hc
          rw [show Mat.entry m crow col = ⟨0, 1⟩ by
            unfold Mat.entry
            rw [List.getD_eq_default _ _ hc]
            rfl] at hpiv
          cases hpiv
        have hrowmem : m.getD r [] ∈ m := Mat.getD_mem hrlt
        have hpivmem : m.getD crow [] ∈ m := Mat.getD_mem hcrowlt
        have hrowlen : (m.getD r []).length = cols := inv.rect _ hrowmem
        have hpivlen : (m.getD crow []).length = cols := inv.rect _ hpivmem
        have hewf : (Mat.entry m r col).WF := Mat.wf_entry inv.wf r col
        have henum : (Mat.entry m r col).numerator ≠ 0 :=
          Fraction.num_ne_zero_of_not_nearZero hewf.1.ne' hnz
        obtain ⟨zs, hzs, hzslen, hzswf, hzspre, hzsval⟩ :=
          combineFrom_ok (Mat.entry m r col) hewf (m.getD r []) (m.getD crow []) 0
            (by rw [hrowlen, hpivlen]) (by omega)
            (fun f hf => inv.wf _ hrowmem f hf) (fun f hf => inv.wf _ hpivmem f hf)
        have hclt' : col < (m.getD r []).length := hclt
        have hnewval : (zs.getD col ⟨0, 1⟩).val = 0 := by
          rw [hzsval col (by omega) (by omega)]
          have h1 : (m.getD r []).getD col ⟨0, 1⟩ = Mat.entry m r col := rfl
          have h2 : (m.getD crow []).getD col ⟨0, 1⟩ = Mat.entry m crow col := rfl
          rw [h1, h2, hpiv, Fraction.val_oneFrac]
          ring
        have hnewfrac : zs.getD col ⟨0, 1⟩ = ⟨0, 1⟩ := by
          rcases getD_mem_or_default zs col ⟨0, 1⟩ with hm | hm
          · exact Fraction.val_inj (hzswf _ hm) Fraction.wf_zeroFrac
              (by rw [hnewval, Fraction.val_zeroFrac])
          · exact hm
        have hchanged : zs.getD col ⟨0, 1⟩ ≠ (m.getD r []).getD col ⟨0, 1⟩ := by
          rw [hnewfrac]
          exact (Fraction.ne_zeroFrac_of_num_ne_zero henum).symm
        have hmne : m.set r zs ≠ m := Mat.set_ne_of_entry_ne hrlt col hchanged
        have inv2 : LoopInv m0 rows cols (m.set r zs)
            (steps ++ [⟨m.set r zs, .elim (Mat.entry m r col) r crow⟩]) :=
          inv.append _ _ (by rw [List.length_set]; exact inv.len)
            (Mat.rect_set inv.rect (by rw [hzslen, hrowlen]) r)
            (Mat.wf_set inv.wf hzswf r) (Or.inr hmne)
        have hpres2 : Mat.entry (m.set r zs) crow col = Mat.entry m crow col :=
          Mat.entry_set_ne zs hrc col
        obtain ⟨m', steps', heq, hinv', hpres⟩ := ih (m.set r zs)
          (steps ++ [⟨m.set r zs, .elim (Mat.entry m r col) r crow⟩]) inv2
          (by rw [hpres2]; exact hpiv)
        refine ⟨m', steps', ?_, hinv', hpres⟩
        rw [show gjElimOthers crow col m steps (r :: rest)
            = (combineFrom (Mat.entry m r col) (m.getD r []) (m.getD crow []) 0 >>= fun newRow =>
               gjElimOthers crow col (m.set r newRow)
                 (steps ++ [⟨m.set r newRow, .elim (Mat.entry m r col) r crow⟩]) rest) by
          simp only [gjElimOthers, if_neg hrc, hnz, Bool.false_eq_true, if_false]]
        rw [hzs, exceptBind_ok]
        exact heq

/-! ## Gauss-Jordan: outer loop -/

theorem gjLoop_master (m0 : Mat) (rows cols : Nat) :
    ∀ (colList : List Nat) (m : Mat) (crow : Nat) (steps : List FractionEliminationStep),
      LoopInv m0 rows cols m steps →
      ∃ m' crow' steps', gjLoop rows m crow steps colList = .ok (m', crow', steps') ∧
        LoopInv m0 rows cols m' steps' := by
  intro colList
  induction colList with
  | nil =>
    intro m crow steps inv
    exact ⟨m, crow, steps, rfl, inv⟩
  | cons col rest ih =>
    intro m crow steps inv
    by_cases hbr : rows ≤ crow
    · refine ⟨m, crow, steps, ?_, inv⟩
      rw [show gjLoop rows m crow steps (col :: rest) = .ok (m, crow, steps) by
        simp only [gjLoop, if_pos hbr]]
    · have hcrow : crow < rows := by omega
      have hmaxlt : findPivotRow m col crow rows < rows := findPivotRow_lt hcrow
      suffices h : ∀ (m1 : Mat) (steps1 : List FractionEliminationStep),
          LoopInv m0 rows cols m1 steps1 →
          ∃ m' crow' steps',
            (if (Mat.entry m1 crow col).isNearZero then gjLoop rows m1 (crow + 1) steps1 rest
             else do
               let x ← gjScale m1 steps1 crow col
               let y ← gjElimOthers crow col x.1 x.2 (List.range rows)
               gjLoop rows y.1 (crow + 1) y.2 rest) = .ok (m', crow', steps') ∧
            LoopInv m0 rows cols m' steps' by
        by_cases hsw : findPivotRow m col crow rows ≠ crow
        · have inv1 : LoopInv m0 rows cols
              (Mat.swapRows m crow (findPivotRow m col crow rows))
              (steps ++ [⟨Mat.swapRows m crow (findPivotRow m col crow rows),
                .swap crow (findPivotRow m col crow rows)⟩]) :=
            inv.append _ _
              (by rw [Mat.swapRows_length]; exact inv.len)
              (Mat.rect_swapRows inv.rect (inv.len ▸ hcrow) (inv.len ▸ hmaxlt))
              (Mat.wf_swapRows inv.wf (inv.len ▸ hcrow) (inv.len ▸ hmaxlt))
              (Or.inl ⟨crow, findPivotRow m col crow rows, rfl⟩)
          obtain ⟨m', crow', steps', heq, hinv'⟩ := h _ _ inv1
          refine ⟨m', crow', steps', ?_, hinv'⟩
          rw [show gjLoop rows m crow steps (col :: rest)
              = (if (Mat.entry (Mat.swapRows m crow (findPivotRow m col crow rows))
                    crow col).isNearZero
                 then gjLoop rows (Mat.swapRows m crow (findPivotRow m col crow rows))
                   (crow + 1)
                   (steps ++ [⟨Mat.swapRows m crow (findPivotRow m col crow rows),
                     .swap crow (findPivotRow m col crow rows)⟩]) rest
                 else do
                   let x ← gjScale (Mat.swapRows m crow (findPivotRow m col crow rows))
                     (steps ++ [⟨Mat.swapRows m crow (findPivotRow m col crow rows),
                       .swap crow (findPivotRow m col crow rows)⟩]) crow col
                   let y ← gjElimOthers crow col x.1 x.2 (List.range rows)
                   gjLoop rows y.1 (crow + 1) y.2 rest) by
            simp only [gjLoop, if_neg hbr, if_pos hsw]]
          exact heq
        · obtain ⟨m', crow', steps', heq, hinv'⟩ := h m steps inv
          refine ⟨m', crow', steps', ?_, hinv'⟩
          rw [show gjLoop rows m crow steps (col :: rest)
              = (if (Mat.entry m crow col).isNearZero then gjLoop rows m (crow + 1) steps rest
                 else do
                   let x ← gjScale m steps crow col
                   let y ← gjElimOthers crow col x.1 x.2 (List.range rows)
                   gjLoop rows y.1 (crow + 1) y.2 rest) by
            simp only [gjLoop, if_neg hbr, if_neg hsw]]
          exact heq
      intro m1 steps1 inv1
      by_cases hnz : (Mat.entry m1 crow col).isNearZero = true
      · rw [if_pos hnz]
        exact ih m1 (crow + 1) steps1 inv1
      · rw [if_neg hnz]
        rw [Bool.not_eq_true] at hnz
        obtain ⟨m2, steps2, hgs, inv2, hpiv2⟩ :=
          gjScale_master m0 rows cols m1 steps1 crow col inv1 hnz
        obtain ⟨m3, steps3, hge, inv3, -⟩ :=
          gjElimOthers_master m0 rows cols crow col (List.range rows) m2 steps2 inv2 hpiv2
        obtain ⟨m', crow', steps', heq, hinv'⟩ := ih m3 (crow + 1) steps3 inv3
        refine ⟨m', crow', steps', ?_, hinv'⟩
        rw [hgs, exceptBind_ok]
        show (gjElimOthers crow col m2 steps2 (List.range rows) >>= fun y =>
          gjLoop rows y.1 (crow + 1) y.2 rest) = _
        rw [hge, exceptBind_ok]
        exact heq

/-! ## Top-level runs -/

theorem initialInv (m : Mat) (cols : Nat) (hrect : Mat.Rect m cols) (hwf : Mat.WF m) :
    LoopInv m m.length cols m [⟨m, Op.initial⟩] where
  len := rfl
  rect := hrect
  wf := hwf
  head := rfl
  lastm := ⟨⟨m, .initial⟩, rfl, rfl⟩
  chain := trivial
  shapes := by
    intro s hs
    rw [List.mem_singleton.mp hs]
    exact ⟨rfl, hrect⟩

theorem gaussianElim_full (m : Mat) (cols : Nat) (hrect : Mat.Rect m cols)
    (hwf : Mat.WF m) :
    ∃ m' steps', gaussianEliminationWithFractions m = .ok ⟨m', steps'⟩ ∧
      LoopInv m m.length cols m' steps' := by
  obtain ⟨m', steps', heq, hinv⟩ :=
    geLoop_master m m.length cols
      (List.range (min m.length ((m.getD 0 []).length - 1))) m [⟨m, Op.initial⟩]
      (initialInv m cols hrect hwf)
      (fun c hc => by have := List.mem_range.mp hc; omega)
  refine ⟨m', steps', ?_, hinv⟩
  simp only [gaussianEliminationWithFractions]
  rw [heq, exceptBind_ok]
  rfl

theorem gaussJordan_full (m : Mat) (cols : Nat) (hrect : Mat.Rect m cols)
    (hwf : Mat.WF m) :
    ∃ m' steps', gaussJordanWithFractions m = .ok ⟨m', steps'⟩ ∧
      LoopInv m m.length cols m' steps' := by
  obtain ⟨m', crow', steps', heq, hinv⟩ :=
    gjLoop_master m m.length cols
      (List.range (min m.length ((m.getD 0 []).length - 1))) m 0 [⟨m, Op.initial⟩]
      (initialInv m cols hrect hwf)
  refine ⟨m', steps', ?_, hinv⟩
  simp only [gaussJordanWithFractions]
  rw [heq, exceptBind_ok]
  rfl

/-- C7: for every rectangular matrix of canonical-form fractions and both
elimination algorithms, the trace's first entry is the `Initial` snapshot of
the original input, and every subsequent entry is a row-swap step or differs
from its predecessor's snapshot (list matrices of equal shape differ exactly
when some entry differs). -/
theorem C7_trace (m : Mat) (cols : Nat) (hrect : Mat.Rect m cols) (hwf : Mat.WF m) :
    (∃ res, gaussianEliminationWithFractions m = .ok res ∧
      res.steps.head? = some ⟨m, Op.initial⟩ ∧ chainOk res.steps) ∧
    (∃ res, gaussJordanWithFractions m = .ok res ∧
      res.steps.head? = some ⟨m, Op.initial⟩ ∧ chainOk res.steps) := by
  constructor
  · obtain ⟨m', steps', heq, hinv⟩ := gaussianElim_full m cols hrect hwf
    exact ⟨⟨m', steps'⟩, heq, hinv.head, hinv.chain⟩
  · obtain ⟨m', steps', heq, hinv⟩ := gaussJordan_full m cols hrect hwf
    exact ⟨⟨m', steps'⟩, heq, hinv.head, hinv.chain⟩

/-- Witness for C7 at the concrete matrix `[[2,1,3],[1,2,1]]`. -/
theorem C7_trace_witness :
    (∃ res, gaussianEliminationWithFractions (numberMatrixToFractions [[2, 1, 3], [1, 2, 1]])
        = .ok res ∧
      res.steps.head? = some ⟨numberMatrixToFractions [[2, 1, 3], [1, 2, 1]], Op.initial⟩ ∧
      chainOk res.steps) ∧
    (∃ res, gaussJordanWithFractions (numberMatrixToFractions [[2, 1, 3], [1, 2, 1]])
        = .ok res ∧
      res.steps.head? = some ⟨numberMatrixToFractions [[2, 1, 3], [1, 2, 1]], Op.initial⟩ ∧
      chainOk res.steps) :=
  C7_trace (numberMatrixToFractions [[2, 1, 3], [1, 2, 1]]) 3 (by decide) (by decide)

/-- C10: for every non-empty rectangular matrix of canonical-form fractions,
both algorithms succeed, and the result matrix and every trace snapshot have
exactly the input's row count and row lengths. -/
theorem C10_shape (m : Mat) (cols : Nat) (hne : m ≠ []) (hrect : Mat.Rect m cols)
    (hwf : Mat.WF m) :
    (∃ res, gaussianEliminationWithFractions m = .ok res ∧
      res.result.length = m.length ∧ Mat.Rect res.result cols ∧
      ∀ s ∈ res.steps, s.matrix.length = m.length ∧ Mat.Rect s.matrix cols) ∧
    (∃ res, gaussJordanWithFractions m = .ok res ∧
      res.result.length = m.length ∧ Mat.Rect res.result cols ∧
      ∀ s ∈ res.steps, s.matrix.length = m.length ∧ Mat.Rect s.matrix cols) := by
  constructor
  · obtain ⟨m', steps', heq, hinv⟩ := gaussianElim_full m cols hrect hwf
    exact ⟨⟨m', steps'⟩, heq, hinv.len, hinv.rect, hinv.shapes⟩
  · obtain ⟨m', steps', heq, hinv⟩ := gaussJordan_full m cols hrect hwf
    exact ⟨⟨m', steps'⟩, heq, hinv.len, hinv.rect, hinv.shapes⟩

/-- Witness for C10 at the concrete matrix `[[0,1,2],[1,0,1]]`. -/
theorem C10_shape_witness :
    (∃ res, gaussianEliminationWithFractions (numberMatrixToFractions [[0, 1, 2], [1, 0, 1]])
        = .ok res ∧
      res.result.length = (numberMatrixToFractions [[0, 1, 2], [1, 0, 1]]).length ∧
      Mat.Rect res.result 3 ∧
      ∀ s ∈ res.steps,
        s.matrix.length = (numberMatrixToFractions [[0, 1, 2], [1, 0, 1]]).length ∧
        Mat.Rect s.matrix 3) ∧
    (∃ res, gaussJordanWithFractions (numberMatrixToFractions [[0, 1, 2], [1, 0, 1]])
        = .ok res ∧
      res.result.length = (numberMatrixToFractions [[0, 1, 2], [1, 0, 1]]).length ∧
      Mat.Rect res.result 3 ∧
      ∀ s ∈ res.steps,
        s.matrix.length = (numberMatrixToFractions [[0, 1, 2], [1, 0, 1]]).length ∧
        Mat.Rect s.matrix 3) :=
  C10_shape (numberMatrixToFractions [[0, 1, 2], [1, 0, 1]]) 3 (by decide) (by decide)
    (by decide)

/-! ## C8 groundwork: the structure of an RREF matrix -/

theorem not_isZeroRow_iff {row : List Fraction} :
    ¬isZeroRow row ↔ ∃ f ∈ row, f.numerator ≠ 0 := by
  unfold isZeroRow
  push_neg
  rfl

theorem leadIdx_lt_length {row : List Fraction} (h : ¬isZeroRow row) :
    leadIdx row < row.length := by
  obtain ⟨f, hf, hne⟩ := not_isZeroRow_iff.mp h
  exact List.findIdx_lt_length.mpr ⟨f, hf, decide_eq_true hne⟩

theorem num_zero_of_lt_leadIdx {row : List Fraction} {k : Nat} (h : k < leadIdx row) :
    (row.getD k ⟨0, 1⟩).numerator = 0 := by
  have hk : k < row.length := lt_of_lt_of_le h (List.findIdx_le_length _)
  have hfalse := List.not_of_lt_findIdx h
  rw [List.getD_eq_getElem row ⟨0, 1⟩ hk]
  exact of_not_not (of_decide_eq_false hfalse)

theorem num_ne_zero_at_leadIdx {row : List Fraction} (h : ¬isZeroRow row) :
    (row.getD (leadIdx row) ⟨0, 1⟩).numerator ≠ 0 := by
  have hk : leadIdx row < row.length := leadIdx_lt_length h
  rw [List.getD_eq_getElem row ⟨0, 1⟩ hk]
  apply of_decide_eq_true
  exact @List.findIdx_getElem _ (fun f : Fraction => decide (f.numerator ≠ 0)) row hk

theorem zeroRow_entry {row : List Fraction} (h : isZeroRow row) (k : Nat) :
    (row.getD k ⟨0, 1⟩).numerator = 0 := by
  rcases getD_mem_or_default row k ⟨0, 1⟩ with hm | hm
  · exact h _ hm
  · rw [hm]

theorem rref_lead_ge {m : Mat} (h : m.IsRREF) :
    ∀ r, r < m.length → ¬isZeroRow (m.getD r []) → r ≤ leadIdx (m.getD r []) := by
  intro r
  induction r with
  | zero => intro _ _; exact Nat.zero_le _
  | succ r ih =>
    intro hr hnz
    have hrlt : r < m.length := by omega
    have hprev : ¬isZeroRow (m.getD r []) := by
      intro hz
      exact hnz (h.1 r (List.mem_range.mpr hrlt) (r + 1) (List.mem_range.mpr hr)
        (by omega) hz)
    have h1 : r ≤ leadIdx (m.getD r []) := ih hrlt hprev
    have h2 : leadIdx (m.getD r []) < leadIdx (m.getD (r + 1) []) :=
      h.2.1 r (List.mem_range.mpr hrlt) (r + 1) (List.mem_range.mpr hr) (by omega) hnz
    omega

theorem rref_entry_cases {m : Mat} (h : m.IsRREF) (r c : Nat)
    (hr : r < m.length) (hcr : c ≤ r) :
    (Mat.entry m r c).numerator = 0 ∨
    (r = c ∧ Mat.entry m r c = ⟨1, 1⟩ ∧
      ∀ r', r' < m.length → r' ≠ c → (Mat.entry m r' c).numerator = 0) := by
  by_cases hz : isZeroRow (m.getD r [])
  · exact Or.inl (zeroRow_entry hz c)
  · have hlead : r ≤ leadIdx (m.getD r []) := rref_lead_ge h r hr hz
    rcases lt_trichotomy c (leadIdx (m.getD r [])) with hc | hc | hc
    · exact Or.inl (num_zero_of_lt_leadIdx hc)
    · have hrc : r = c := by omega
      subst hrc
      refine Or.inr ⟨rfl, ?_, ?_⟩
      · have := h.2.2.1 r (List.mem_range.mpr hr) hz
        rw [← hc] at this
        exact this
      · intro r' hr' hne
        have := h.2.2.2 r (List.mem_range.mpr hr) hz r' (List.mem_range.mpr hr')
          (by omega)
        rw [← hc] at this
        exact this
    · omega

theorem Fraction.absGt_false_of_num_zero {a b : Fraction} (h : a.numerator = 0) :
    Fraction.absGt a b = false := by
  unfold Fraction.absGt
  rw [h]
  simp

theorem findPivotAux_const {m : Mat} {c : Nat} :
    ∀ (l : List Nat) (maxRow : Nat),
      (∀ r ∈ l, (Mat.entry m r c).numerator = 0) →
      findPivotAux m c maxRow l = maxRow := by
  intro l
  induction l with
  | nil => intro maxRow _; rfl
  | cons r rest ih =>
    intro maxRow hz
    unfold findPivotAux
    rw [Fraction.absGt_false_of_num_zero (hz r (List.mem_cons_self r rest))]
    simp only [Bool.false_eq_true, if_false]
    exact ih maxRow (fun x hx => hz x (List.mem_cons_of_mem r hx))

theorem gjElimOthers_noop (crow col : Nat) :
    ∀ (l : List Nat) (m : Mat) (steps : List FractionEliminationStep),
      (∀ r ∈ l, r = crow ∨ (Mat.entry m r col).isNearZero = true) →
      gjElimOthers crow col m steps l = .ok (m, steps) := by
  intro l
  induction l with
  | nil => intro m steps _; rfl
  | cons r rest ih =>
    intro m steps hz
    rcases hz r (List.mem_cons_self r rest) with hr | hr
    · rw [show gjElimOthers crow col m steps (r :: rest) = gjElimOthers crow col m steps rest by
        simp only [gjElimOthers, if_pos hr]]
      exact ih m steps (fun x hx => hz x (List.mem_cons_of_mem r hx))
    · by_cases hrc : r = crow
      · rw [show gjElimOthers crow col m steps (r :: rest) = gjElimOthers crow col m steps rest by
          simp only [gjElimOthers, if_pos hrc]]
        exact ih m steps (fun x hx => hz x (List.mem_cons_of_mem r hx))
      · rw [show gjElimOthers crow col m steps (r :: rest) = gjElimOthers crow col m steps rest by
          simp only [gjElimOthers, if_neg hrc, hr, if_true]]
        exact ih m steps (fun x hx => hz x (List.mem_cons_of_mem r hx))

theorem gjLoop_rref (m : Mat) (h : m.IsRREF) (hwf : Mat.WF m) :
    ∀ (k c : Nat) (steps : List FractionEliminationStep),
      ∃ crow', gjLoop m.length m c steps (List.range' c k) = .ok (m, crow', steps) := by
  intro k
  induction k with
  | zero => intro c steps; exact ⟨c, rfl⟩
  | succ k ih =>
    intro c steps
    rw [List.range'_succ]
    by_cases hbr : m.length ≤ c
    · refine ⟨c, ?_⟩
      rw [show gjLoop m.length m c steps (c :: List.range' (c + 1) k) = .ok (m, c, steps) by
        simp only [gjLoop, if_pos hbr]]
    · have hc : c < m.length := by omega
      have hscan : findPivotRow m c c m.length = c := by
        unfold findPivotRow
        apply findPivotAux_const
        intro r hr
        have hrr := List.mem_range'_1.mp hr
        have hrlt : r < m.length := by omega
        rcases rref_entry_cases h r c hrlt (by omega) with h0 | ⟨hrc, -, -⟩
        · exact h0
        · omega
      have hnsw : ¬(findPivotRow m c c m.length ≠ c) := by
        rw [hscan]
        simp
      rcases rref_entry_cases h c c hc le_rfl with h0 | ⟨-, hone, hothers⟩
      · have hwfe : (Mat.entry m c c).WF := Mat.wf_entry hwf c c
        have hnz : (Mat.entry m c c).isNearZero = true :=
          Fraction.isNearZero_of_num_zero hwfe.1.ne' h0
        obtain ⟨crow', hrec⟩ := ih (c + 1) steps
        refine ⟨crow', ?_⟩
        rw [show gjLoop m.length m c steps (c :: List.range' (c + 1) k)
            = gjLoop m.length m (c + 1) steps (List.range' (c + 1) k) by
          simp only [gjLoop, if_neg hbr, if_neg hnsw, hnz, if_true]]
        exact hrec
      · have hnz : (Mat.entry m c c).isNearZero = false := by
          rw [hone]
          decide
        have heqs : Fraction.equals (Mat.entry m c c) (Fraction.ofInt 1) = true :=
          decide_eq_true (by rw [hone]; rfl)
        have hgs : gjScale m steps c c = .ok (m, steps) := by
          unfold gjScale
          rw [if_pos heqs]
        have hge : gjElimOthers c c m steps (List.range m.length) = .ok (m, steps) := by
          apply gjElimOthers_noop
          intro r hr
          by_cases hrc : r = c
          · exact Or.inl hrc
          · right
            have hrlt : r < m.length := List.mem_range.mp hr
            have hwfe : (Mat.entry m r c).WF := Mat.wf_entry hwf r c
            exact Fraction.isNearZero_of_num_zero hwfe.1.ne' (hothers r hrlt hrc)
        obtain ⟨crow', hrec⟩ := ih (c + 1) steps
        refine ⟨crow', ?_⟩
        rw [show gjLoop m.length m c steps (c :: List.range' (c + 1) k)
            = (do
                let x ← gjScale m steps c c
                let y ← gjElimOthers c c x.1 x.2 (List.range m.length)
                gjLoop m.length y.1 (c + 1) y.2 (List.range' (c + 1) k)) by
          simp only [gjLoop, if_neg hbr, if_neg hnsw, hnz, Bool.false_eq_true, if_false]]
        rw [hgs, exceptBind_ok]
        show (gjElimOthers c c m steps (List.range m.length) >>= fun y =>
          gjLoop m.length y.1 (c + 1) y.2 (List.range' (c + 1) k)) = _
        rw [hge, exceptBind_ok]
        exact hrec

/-- C8: Gauss-Jordan is the identity on a matrix (of canonical-form fractions)
that is already in reduced row-echelon form: the result equals the input and
the trace holds nothing but the initial snapshot. -/
theorem C8_rref_idempotent (m : Mat) (hwf : Mat.WF m) (hrref : m.IsRREF) :
    gaussJordanWithFractions m = .ok ⟨m, [⟨m, Op.initial⟩]⟩ := by
  obtain ⟨crow', heq⟩ := gjLoop_rref m hrref hwf
    (min m.length ((m.getD 0 []).length - 1)) 0 [⟨m, Op.initial⟩]
  simp only [gaussJordanWithFractions]
  rw [show List.range (min m.length ((m.getD 0 []).length - 1))
      = List.range' 0 (min m.length ((m.getD 0 []).length - 1)) from List.range_eq_range' _]
  rw [heq, exceptBind_ok]
  rfl

/-- Witness for C8 at the concrete RREF matrix `[[1,0,5],[0,1,3]]`. -/
theorem C8_rref_idempotent_witness :
    gaussJordanWithFractions (numberMatrixToFractions [[1, 0, 5], [0, 1, 3]])
      = .ok ⟨numberMatrixToFractions [[1, 0, 5], [0, 1, 3]],
          [⟨numberMatrixToFractions [[1, 0, 5], [0, 1, 3]], Op.initial⟩]⟩ :=
  C8_rref_idempotent (numberMatrixToFractions [[1, 0, 5], [0, 1, 3]]) (by decide) (by decide)
